import Mathlib

/-!
Shallow embedding of the Vig VHDL lexer (src/lexer.rs) and structural
analyzer (src/analyzer.rs), with theorems checking the natural-language
specification against the code.

Modelling conventions:
* Rust `usize` byte positions are `Nat`; multi-byte characters advance the
  position by `Char.utf8Size`, as in the source.
* The Unicode character classes used by the source (`char::is_alphabetic`,
  `char::is_alphanumeric`, `char::is_whitespace`, `str::to_lowercase`) are
  modelled by Lean's ASCII-oriented `Char.isAlpha`, `Char.isAlphanum`,
  `Char.isWhitespace` and `String.toLower`; no claim checked here depends
  on the non-ASCII fringe of those classes.
* Error message strings are abbreviated to constant texts: no claim
  concerns the exact message wording, only which error is raised and its
  span.
* Rust loops are modelled with an explicit fuel parameter; `none` marks
  fuel exhaustion and is proved unreachable for the fuel actually passed.
-/

namespace Vig

/-- Token kinds of the lexer (`TokenKind` in src/lexer.rs). -/
inductive TokenKind where
  | Identifier | Number | BitStringLiteral | CharacterLiteral | StringLiteral
  | Entity | Architecture | Port | Signal | Process | Begin | End
  | If | Then | Else | Elsif | Case | When | Is | Of | Others
  | Library | Use | In | Out | Inout | Buffer | Generic | Map | Component
  | To | Downto
  | StdLogic | StdLogicVector | Integer | Boolean
  | Assignment | Association | Eq | Neq | Lt | Lte | Gt | Gte
  | Plus | Minus | Star | Slash | Power | Ampersand
  | And | Or | Not | Xor | Nand | Nor
  | LeftParen | RightParen | Semicolon | Colon | Comma | Dot | Apostrophe
  | Comment | Eof | Unknown
  deriving DecidableEq

/-- Half-open byte range (`Span` in src/lexer.rs). -/
structure Span where
  start : Nat
  «end» : Nat
  deriving DecidableEq

/-- A lexed token (`Token` in src/lexer.rs). -/
structure Token where
  kind : TokenKind
  span : Span
  text : String
  deriving DecidableEq

/-- Helper for building concrete tokens in examples. -/
def mkTok (kind : TokenKind) (s e : Nat) (text : String) : Token :=
  { kind := kind, span := ⟨s, e⟩, text := text }

/-- Lexer error (`LexError` in src/lexer.rs). -/
structure LexError where
  message : String
  span : Span
  deriving DecidableEq

/-- Lexer state: byte position plus the remaining characters.  The Rust
struct keeps `position`, a `Chars` iterator and the cached `current_char`;
here `rest` holds the current character (if any) followed by the iterator's
remaining characters. -/
structure Lexer where
  position : Nat
  rest : List Char
  deriving DecidableEq

/-- `Lexer::new`. -/
def Lexer.new (source : String) : Lexer :=
  { position := 0, rest := source.toList }

/-- The current character (`Lexer::current`). -/
def Lexer.current (l : Lexer) : Option Char :=
  l.rest.head?

/-- One-character lookahead (`Lexer::peek`): the character after the
current one. -/
def Lexer.peek (l : Lexer) : Option Char :=
  l.rest.tail.head?

/-- `Lexer::advance`: consume the current character, advancing the byte
position by its UTF-8 length. -/
def Lexer.advance (l : Lexer) : Lexer :=
  match l.rest with
  | [] => l
  | c :: cs => { position := l.position + c.utf8Size, rest := cs }

/-- Total UTF-8 byte length of a character list. -/
def utf8Len (cs : List Char) : Nat :=
  (cs.map Char.utf8Size).sum

/-- `Lexer::consume_while`: consume characters satisfying `p`, returning
the consumed text, the span from `start` to the new position, and the new
state. -/
def Lexer.consume_while (l : Lexer) (start : Nat) (p : Char → Bool) :
    (String × Span) × Lexer :=
  let taken := l.rest.takeWhile p
  let pos2 := l.position + utf8Len taken
  ((String.mk taken, ⟨start, pos2⟩), ⟨pos2, l.rest.dropWhile p⟩)

/-- `Lexer::skip_whitespace`. -/
def Lexer.skip_whitespace (l : Lexer) : Lexer :=
  ⟨l.position + utf8Len (l.rest.takeWhile Char.isWhitespace),
    l.rest.dropWhile Char.isWhitespace⟩

/-- `Lexer::keyword_or_identifier`: case-insensitive keyword table. -/
def keyword_or_identifier (text : String) : TokenKind :=
  match text.toLower with
  | "entity" => .Entity
  | "architecture" => .Architecture
  | "port" => .Port
  | "signal" => .Signal
  | "process" => .Process
  | "begin" => .Begin
  | "end" => .End
  | "if" => .If
  | "then" => .Then
  | "else" => .Else
  | "elsif" => .Elsif
  | "case" => .Case
  | "when" => .When
  | "is" => .Is
  | "of" => .Of
  | "others" => .Others
  | "library" => .Library
  | "use" => .Use
  | "in" => .In
  | "out" => .Out
  | "inout" => .Inout
  | "buffer" => .Buffer
  | "generic" => .Generic
  | "map" => .Map
  | "component" => .Component
  | "to" => .To
  | "downto" => .Downto
  | "std_logic" => .StdLogic
  | "std_logic_vector" => .StdLogicVector
  | "integer" => .Integer
  | "boolean" => .Boolean
  | "and" => .And
  | "or" => .Or
  | "not" => .Not
  | "xor" => .Xor
  | "nand" => .Nand
  | "nor" => .Nor
  | _ => .Identifier

/-- `Lexer::lex_identifier`. -/
def Lexer.lex_identifier (l : Lexer) (start : Nat) : Token × Lexer :=
  let r := l.consume_while start (fun ch => ch.isAlphanum || ch == '_')
  ({ kind := keyword_or_identifier r.1.1, span := r.1.2, text := r.1.1 }, r.2)

/-- `Lexer::lex_number`.  The source predicate is
`ch.is_ascii_digit() || ch == '.' || ch == '_' ||
 ch.is_ascii_lowercase() && "eE".contains(ch)`; the last conjunct holds
exactly for the lowercase letter e. -/
def Lexer.lex_number (l : Lexer) (start : Nat) : Token × Lexer :=
  let r := l.consume_while start
    (fun ch => ch.isDigit || ch == '.' || ch == '_' ||
      (ch.isLower && (ch == 'e' || ch == 'E')))
  ({ kind := .Number, span := r.1.2, text := r.1.1 }, r.2)

/-- `Lexer::lex_comment`: one `advance` (consuming the character the
cursor is on) followed by `consume_while (ch != newline)` from `start`. -/
def Lexer.lex_comment (l : Lexer) (start : Nat) : Token × Lexer :=
  let l1 := l.advance
  let r := l1.consume_while start (fun ch => ch != '\n')
  ({ kind := .Comment, span := r.1.2, text := r.1.1 }, r.2)

/-- `Lexer::lex_character`. -/
def Lexer.lex_character (l : Lexer) (start : Nat) :
    Except LexError Token × Lexer :=
  match l.advance.rest with
  | ch :: _ =>
    match l.advance.advance.rest with
    | c2 :: _ =>
      if c2 = '\'' then
        (.ok { kind := .CharacterLiteral,
               span := ⟨start, l.advance.advance.advance.position⟩,
               text := String.mk ['\'', ch, '\''] },
          l.advance.advance.advance)
      else
        (.error { message := "invalid character literal",
                  span := ⟨start, l.advance.advance.position⟩ },
          l.advance.advance)
    | [] =>
      (.error { message := "invalid character literal",
                span := ⟨start, l.advance.advance.position⟩ },
        l.advance.advance)
  | [] =>
    (.error { message := "invalid character literal",
              span := ⟨start, l.advance.position⟩ }, l.advance)

/-- Loop of `Lexer::lex_string_literal`, carrying the accumulated text and
position explicitly. -/
def lex_string_loop (start : Nat) : String → Nat → List Char →
    Except LexError Token × Lexer
  | _text, pos, [] =>
    (.error { message := "unclosed string literal", span := ⟨start, pos⟩ },
      ⟨pos, []⟩)
  | text, pos, c :: cs =>
    let pos2 := pos + c.utf8Size
    let text2 := text.push c
    if c = '"' then
      (.ok { kind := .StringLiteral, span := ⟨start, pos2⟩, text := text2 },
        ⟨pos2, cs⟩)
    else
      lex_string_loop start text2 pos2 cs

/-- `Lexer::lex_string_literal`. -/
def Lexer.lex_string_literal (l : Lexer) (start : Nat) :
    Except LexError Token × Lexer :=
  let l1 := l.advance
  let openQuote : String := "\""
  lex_string_loop start openQuote l1.position l1.rest

/-- `Lexer::try_symbol`: two-character symbols first, then one-character
symbols. -/
def Lexer.try_symbol (l : Lexer) (ch : Char) : Option (TokenKind × Nat) :=
  let two : Option (TokenKind × Nat) :=
    match l.peek with
    | some next =>
      match ch, next with
      | ':', '=' => some (.Assignment, 2)
      | '=', '>' => some (.Association, 2)
      | '/', '=' => some (.Neq, 2)
      | '<', '=' => some (.Lte, 2)
      | '>', '=' => some (.Gte, 2)
      | '*', '*' => some (.Power, 2)
      | _, _ => none
    | none => none
  match two with
  | some r => some r
  | none =>
    match ch with
    | ':' => some (.Colon, 1)
    | '=' => some (.Eq, 1)
    | '<' => some (.Lt, 1)
    | '>' => some (.Gt, 1)
    | '+' => some (.Plus, 1)
    | '-' => some (.Minus, 1)
    | '*' => some (.Star, 1)
    | '/' => some (.Slash, 1)
    | '&' => some (.Ampersand, 1)
    | '(' => some (.LeftParen, 1)
    | ')' => some (.RightParen, 1)
    | ';' => some (.Semicolon, 1)
    | ',' => some (.Comma, 1)
    | '.' => some (.Dot, 1)
    | _ => none

/-- The `for _ in 0..len` symbol-consumption loop inside
`Lexer::next_token`. -/
def Lexer.consume_n (l : Lexer) (text : String) : Nat → String × Lexer
  | 0 => (text, l)
  | n + 1 =>
    match l.current with
    | some c => Lexer.consume_n l.advance (text.push c) n
    | none => Lexer.consume_n l.advance text n

/-- The classification step of `Lexer::next_token`, applied to the state
after the leading whitespace skip; the token's start offset is this
state's position. -/
def Lexer.next_token_at (l1 : Lexer) : Except LexError Token × Lexer :=
  match l1.current with
  | none =>
    (.ok { kind := .Eof, span := ⟨l1.position, l1.position⟩, text := "" },
      l1)
  | some ch =>
    if ch.isAlpha || ch == '_' then
      (.ok (Lexer.lex_identifier l1 l1.position).1,
        (Lexer.lex_identifier l1 l1.position).2)
    else if ch.isDigit then
      (.ok (Lexer.lex_number l1 l1.position).1,
        (Lexer.lex_number l1 l1.position).2)
    else if ch == '"' then
      Lexer.lex_string_literal l1 l1.position
    else if ch == '\'' then
      Lexer.lex_character l1 l1.position
    else if ch == '-' && l1.peek == some '-' then
      (.ok (Lexer.lex_comment l1 l1.position).1,
        (Lexer.lex_comment l1 l1.position).2)
    else
      match Lexer.try_symbol l1 ch with
      | some kl =>
        (.ok { kind := kl.1,
               span := ⟨l1.position,
                        (Lexer.consume_n l1 (String.mk []) kl.2).2.position⟩,
               text := (Lexer.consume_n l1 (String.mk []) kl.2).1 },
          (Lexer.consume_n l1 (String.mk []) kl.2).2)
      | none =>
        (.error { message := "unexpected character",
                  span := ⟨l1.position, l1.advance.position⟩ },
          l1.advance)

/-- `Lexer::next_token`: skip whitespace, then classify. -/
def Lexer.next_token (l : Lexer) : Except LexError Token × Lexer :=
  (l.skip_whitespace).next_token_at

/-- The `Iterator` instance collected into a list: repeatedly call
`next_token`, stopping (without yielding) at the `Eof` token.  `fuel`
bounds the number of iterations; `tokenize` below passes enough fuel. -/
def tokenizeFuel : Nat → Lexer → List (Except LexError Token)
  | 0, _ => []
  | fuel + 1, l =>
    let r := l.next_token
    match r.1 with
    | .ok t => if t.kind = .Eof then [] else .ok t :: tokenizeFuel fuel r.2
    | .error e => .error e :: tokenizeFuel fuel r.2

/-- `Lexer::new(source).collect()`: the full lex of a source string. -/
def tokenize (source : String) : List (Except LexError Token) :=
  tokenizeFuel (source.toList.length + 1) (Lexer.new source)

/-! ## Analyzer data model (src/analyzer.rs) -/

/-- `PortDirection`. -/
inductive PortDirection where
  | In | Out | Inout | Buffer
  deriving DecidableEq

/-- `VhdlType`.  `i64` bounds are modelled as `Int`; `rustParseI64` below
enforces the 64-bit range exactly where the source calls
`str::parse::<i64>`. -/
inductive VhdlType where
  | StdLogic
  | StdLogicVector (high low : Int)
  | Integer
  | Boolean
  | Other (name : String)
  deriving DecidableEq

/-- `PortDef`. -/
structure PortDef where
  name : String
  direction : PortDirection
  vhdl_type : VhdlType
  span : Span
  deriving DecidableEq

/-- `SignalDef`. -/
structure SignalDef where
  name : String
  vhdl_type : VhdlType
  default_value : Option String
  span : Span
  deriving DecidableEq

/-- `EntityDef`. -/
structure EntityDef where
  name : String
  ports : List PortDef
  span : Span
  deriving DecidableEq

/-- `ArchitectureDef`. -/
structure ArchitectureDef where
  name : String
  entity_name : String
  signals : List SignalDef
  span : Span
  deriving DecidableEq

/-- `AnalyzeResult`. -/
structure AnalyzeResult where
  entities : List EntityDef
  architectures : List ArchitectureDef
  deriving DecidableEq

/-- `AnalyzeError`. -/
structure AnalyzeError where
  message : String
  span : Span
  deriving DecidableEq

/-- `str::parse::<i64>`: an optional sign followed by at least one ASCII
digit, the value fitting in 64 signed bits; `none` on any other shape. -/
def rustParseI64 (s : String) : Option Int :=
  let cs := s.toList
  let signed : Bool × List Char :=
    match cs with
    | '+' :: rest => (false, rest)
    | '-' :: rest => (true, rest)
    | _ => (false, cs)
  let ds := signed.2
  if ds = [] then none
  else if ds.all Char.isDigit then
    let v : Nat := ds.foldl (fun acc c => acc * 10 + (c.toNat - '0'.toNat)) 0
    let i : Int := if signed.1 then -(v : Int) else (v : Int)
    if -(2 ^ 63) ≤ i ∧ i ≤ 2 ^ 63 - 1 then some i else none
  else none

/-- `eof_token()`: the sentinel substituted on out-of-bounds cursor
reads. -/
def eof_token : Token :=
  { kind := .Eof, span := ⟨0, 0⟩, text := "" }

/-- Analyzer state (`Analyzer` in src/analyzer.rs): the filtered token
vector and the cursor position. -/
structure Analyzer where
  tokens : List Token
  pos : Nat
  deriving DecidableEq

/-- `Analyzer::new`: drop `Comment` and `Eof` tokens, cursor at 0. -/
def Analyzer.new (tokens : List Token) : Analyzer :=
  { tokens := tokens.filter
      (fun t => t.kind != TokenKind.Comment && t.kind != TokenKind.Eof),
    pos := 0 }

/-- `Analyzer::current`: the token at the cursor, or the Eof sentinel. -/
def Analyzer.current (a : Analyzer) : Token :=
  a.tokens.getD a.pos eof_token

/-- `Analyzer::peek`. -/
def Analyzer.peek (a : Analyzer) (offset : Nat) : Token :=
  a.tokens.getD (a.pos + offset) eof_token

/-- `Analyzer::advance`: move the cursor forward, saturating at the
vector length. -/
def Analyzer.advance (a : Analyzer) : Analyzer :=
  if a.pos < a.tokens.length then { a with pos := a.pos + 1 } else a

/-- `Analyzer::expect`. -/
def Analyzer.expect (a : Analyzer) (kind : TokenKind) :
    Except AnalyzeError (Token × Analyzer) :=
  if a.current.kind = kind then .ok (a.current, a.advance)
  else .error { message := "unexpected token", span := a.current.span }

/-- `Analyzer::eat`. -/
def Analyzer.eat (a : Analyzer) (kind : TokenKind) : Bool × Analyzer :=
  if a.current.kind = kind then (true, a.advance) else (false, a)

/-- `Analyzer::skip_until`: advance until end of stream or a token of one
of `kinds`. -/
def Analyzer.skip_until (kinds : List TokenKind) :
    Nat → Analyzer → Option Analyzer
  | 0, _ => none
  | fuel + 1, a =>
    if a.current.kind = .Eof then some a
    else if kinds.contains a.current.kind then some a
    else Analyzer.skip_until kinds fuel a.advance

/-- `Analyzer::parse_direction`. -/
def Analyzer.parse_direction (a : Analyzer) :
    Except AnalyzeError (PortDirection × Analyzer) :=
  match a.current.kind with
  | .In => .ok (.In, a.advance)
  | .Out => .ok (.Out, a.advance)
  | .Inout => .ok (.Inout, a.advance)
  | .Buffer => .ok (.Buffer, a.advance)
  | _ => .error { message := "expected port direction",
                  span := a.current.span }

/-- `Analyzer::parse_type`. -/
def Analyzer.parse_type (a : Analyzer) :
    Except AnalyzeError (VhdlType × Analyzer) :=
  match a.current.kind with
  | .StdLogic => .ok (.StdLogic, a.advance)
  | .StdLogicVector =>
    let a1 := a.advance
    if a1.current.kind = .LeftParen then
      let a2 := a1.advance
      match a2.expect .Number with
      | .error e => .error e
      | .ok (t1, a3) =>
        let high : Int := (rustParseI64 t1.text).getD 0
        let a4 :=
          if a3.current.kind = .Downto || a3.current.kind = .To then
            a3.advance
          else a3
        match a4.expect .Number with
        | .error e => .error e
        | .ok (t2, a5) =>
          let low : Int := (rustParseI64 t2.text).getD 0
          match a5.expect .RightParen with
          | .error e => .error e
          | .ok (_, a6) => .ok (.StdLogicVector high low, a6)
    else
      .ok (.StdLogicVector 0 0, a1)
  | .Integer => .ok (.Integer, a.advance)
  | .Boolean => .ok (.Boolean, a.advance)
  | .Identifier => .ok (.Other a.current.text, a.advance)
  | _ => .error { message := "expected type", span := a.current.span }

/-- The `while eat(Comma)` loop of `Analyzer::parse_port_group`,
accumulating names.  `eat` is inlined: on a `Comma` it advances and the
loop body runs, otherwise the state is left unchanged and the loop
exits. -/
def Analyzer.port_names_loop :
    Nat → List String → Analyzer →
    Option (Except AnalyzeError (List String × Analyzer))
  | 0, _, _ => none
  | fuel + 1, names, a =>
    if a.current.kind = .Comma then
      match a.advance.expect .Identifier with
      | .error e => some (.error e)
      | .ok (t, a2) => Analyzer.port_names_loop fuel (names ++ [t.text]) a2
    else
      some (.ok (names, a))

/-- `Analyzer::parse_port_group`. -/
def Analyzer.parse_port_group (fuel : Nat) (a : Analyzer) :
    Option (Except AnalyzeError (List PortDef × Analyzer)) :=
  let span := a.current.span
  match a.expect .Identifier with
  | .error e => some (.error e)
  | .ok (t, a1) =>
    match Analyzer.port_names_loop fuel [t.text] a1 with
    | none => none
    | some (.error e) => some (.error e)
    | some (.ok (names, a2)) =>
      match a2.expect .Colon with
      | .error e => some (.error e)
      | .ok (_, a3) =>
        match a3.parse_direction with
        | .error e => some (.error e)
        | .ok (direction, a4) =>
          match a4.parse_type with
          | .error e => some (.error e)
          | .ok (ty, a5) =>
            some (.ok (names.map (fun n =>
              { name := n, direction := direction, vhdl_type := ty,
                span := span }), a5))

/-- `Analyzer::parse_port_list`.  The `eat(Semicolon)` between groups is
inlined: advance if the current token is a semicolon, else stay. -/
def Analyzer.parse_port_list :
    Nat → Analyzer → Option (Except AnalyzeError (List PortDef × Analyzer))
  | 0, _ => none
  | fuel + 1, a =>
    if a.current.kind = .RightParen || a.current.kind = .Eof then
      some (.ok ([], a))
    else
      match Analyzer.parse_port_group fuel a with
      | none => none
      | some (.error e) => some (.error e)
      | some (.ok (group, a1)) =>
        match Analyzer.parse_port_list fuel
            (if a1.current.kind = .Semicolon then a1.advance else a1) with
        | none => none
        | some (.error e) => some (.error e)
        | some (.ok (ports, a3)) => some (.ok (group ++ ports, a3))

/-- The optional port clause inside `Analyzer::parse_entity`
(`if self.current().kind == TokenKind::Port { ... }`), extracted as a
named helper. -/
def Analyzer.entity_ports (fuel : Nat) (a : Analyzer) :
    Option (Except AnalyzeError (List PortDef × Analyzer)) :=
  if a.current.kind = .Port then
    match a.advance.expect .LeftParen with
    | .error e => some (.error e)
    | .ok (_, a5) =>
      match Analyzer.parse_port_list fuel a5 with
      | none => none
      | some (.error e) => some (.error e)
      | some (.ok (ports, a6)) =>
        match a6.expect .RightParen with
        | .error e => some (.error e)
        | .ok (_, a7) =>
          match a7.expect .Semicolon with
          | .error e => some (.error e)
          | .ok (_, a8) => some (.ok (ports, a8))
  else
    some (.ok ([], a))

/-- `Analyzer::parse_entity`. -/
def Analyzer.parse_entity (fuel : Nat) (a : Analyzer) :
    Option (Except AnalyzeError (EntityDef × Analyzer)) :=
  match a.expect .Entity with
  | .error e => some (.error e)
  | .ok (_, a1) =>
  match a1.expect .Identifier with
  | .error e => some (.error e)
  | .ok (nameTok, a2) =>
  match a2.expect .Is with
  | .error e => some (.error e)
  | .ok (_, a3) =>
    match Analyzer.entity_ports fuel a3 with
    | none => none
    | some (.error e) => some (.error e)
    | some (.ok (ports, a9)) =>
      match Analyzer.skip_until [TokenKind.Semicolon] fuel a9 with
      | none => none
      | some a10 =>
        some (.ok ({ name := nameTok.text, ports := ports,
                     span := ⟨a.current.span.start,
                              a10.current.span.«end»⟩ }, a10.advance))

/-- The collection loop of `Analyzer::parse_default_value`. -/
def Analyzer.parse_default_value :
    Nat → List String → Analyzer → Option (String × Analyzer)
  | 0, _, _ => none
  | fuel + 1, parts, a =>
    if a.current.kind = .Semicolon || a.current.kind = .Eof then
      let sep : String := " "
      some (String.intercalate sep parts, a)
    else
      Analyzer.parse_default_value fuel (parts ++ [a.current.text]) a.advance

/-- The optional `:= default` step of `Analyzer::parse_signal_decl`,
extracted as a named helper. -/
def Analyzer.signal_default (fuel : Nat) (a : Analyzer) :
    Option (Option String × Analyzer) :=
  if a.current.kind = .Assignment then
    match Analyzer.parse_default_value fuel [] a.advance with
    | none => none
    | some (v, a5) => some (some v, a5)
  else
    some (none, a)

/-- `Analyzer::parse_signal_decl`. -/
def Analyzer.parse_signal_decl (fuel : Nat) (a : Analyzer) :
    Option (Except AnalyzeError (SignalDef × Analyzer)) :=
  match a.expect .Signal with
  | .error e => some (.error e)
  | .ok (_, a1) =>
  match a1.expect .Identifier with
  | .error e => some (.error e)
  | .ok (nameTok, a2) =>
  match a2.expect .Colon with
  | .error e => some (.error e)
  | .ok (_, a3) =>
  match a3.parse_type with
  | .error e => some (.error e)
  | .ok (ty, a4) =>
    match Analyzer.signal_default fuel a4 with
    | none => none
    | some (default_value, a5) =>
      match a5.expect .Semicolon with
      | .error e => some (.error e)
      | .ok (_, a6) =>
        some (.ok ({ name := nameTok.text, vhdl_type := ty,
                     default_value := default_value,
                     span := ⟨a.current.span.start,
                              a5.current.span.«end»⟩ }, a6))

/-- The declarative-part loop of `Analyzer::parse_architecture`: extract
`signal` declarations until `begin` (or end of stream). -/
def Analyzer.arch_decls :
    Nat → List SignalDef → Analyzer →
    Option (Except AnalyzeError (List SignalDef × Analyzer))
  | 0, _, _ => none
  | fuel + 1, signals, a =>
    if a.current.kind = .Begin || a.current.kind = .Eof then
      some (.ok (signals, a))
    else if a.current.kind = .Signal then
      match Analyzer.parse_signal_decl fuel a with
      | none => none
      | some (.error e) => some (.error e)
      | some (.ok (sig, a1)) => Analyzer.arch_decls fuel (signals ++ [sig]) a1
    else
      Analyzer.arch_decls fuel signals a.advance

/-- `Analyzer::skip_until_end_architecture`. -/
def Analyzer.skip_until_end_architecture : Nat → Analyzer → Option Analyzer
  | 0, _ => none
  | fuel + 1, a =>
    if a.current.kind = .Eof then some a
    else if a.current.kind = .End && (a.peek 1).kind = .Architecture then
      match Analyzer.skip_until [TokenKind.Semicolon] fuel a with
      | none => none
      | some a1 => some a1.advance
    else
      Analyzer.skip_until_end_architecture fuel a.advance

/-- `Analyzer::parse_architecture`. -/
def Analyzer.parse_architecture (fuel : Nat) (a : Analyzer) :
    Option (Except AnalyzeError (ArchitectureDef × Analyzer)) :=
  match a.expect .Architecture with
  | .error e => some (.error e)
  | .ok (_, a1) =>
  match a1.expect .Identifier with
  | .error e => some (.error e)
  | .ok (archTok, a2) =>
  match a2.expect .Of with
  | .error e => some (.error e)
  | .ok (_, a3) =>
  match a3.expect .Identifier with
  | .error e => some (.error e)
  | .ok (entTok, a4) =>
  match a4.expect .Is with
  | .error e => some (.error e)
  | .ok (_, a5) =>
    match Analyzer.arch_decls fuel [] a5 with
    | none => none
    | some (.error e) => some (.error e)
    | some (.ok (signals, a6)) =>
      match Analyzer.skip_until_end_architecture fuel a6 with
      | none => none
      | some a7 =>
        some (.ok ({ name := archTok.text, entity_name := entTok.text,
                     signals := signals,
                     span := ⟨a.current.span.start,
                              (((a7.tokens.get? (a7.pos - 1)).map
                                Token.span).getD a.current.span).«end»⟩ },
          a7))

/-- The top-level dispatch loop of `Analyzer::analyze`. -/
def Analyzer.analyze_loop :
    Nat → List EntityDef → List ArchitectureDef → Analyzer →
    Option (Except AnalyzeError AnalyzeResult)
  | 0, _, _, _ => none
  | fuel + 1, entities, architectures, a =>
    if a.current.kind = .Eof then
      some (.ok { entities := entities, architectures := architectures })
    else if a.current.kind = .Entity then
      match Analyzer.parse_entity fuel a with
      | none => none
      | some (.error e) => some (.error e)
      | some (.ok (ent, a1)) =>
        Analyzer.analyze_loop fuel (entities ++ [ent]) architectures a1
    else if a.current.kind = .Architecture then
      match Analyzer.parse_architecture fuel a with
      | none => none
      | some (.error e) => some (.error e)
      | some (.ok (arch, a1)) =>
        Analyzer.analyze_loop fuel entities (architectures ++ [arch]) a1
    else
      Analyzer.analyze_loop fuel entities architectures a.advance

/-- `Analyzer::analyze`, with fuel sufficient for the whole run (proved
sufficient below). -/
def Analyzer.analyze (a : Analyzer) :
    Option (Except AnalyzeError AnalyzeResult) :=
  Analyzer.analyze_loop (a.tokens.length + 1) [] [] a

/-- `analyze_vhdl`: lex, drop erroring tokens, analyze. -/
def analyze_vhdl (source : String) :
    Option (Except AnalyzeError AnalyzeResult) :=
  let tokens := (tokenize source).filterMap Except.toOption
  (Analyzer.new tokens).analyze

/-! ## Basic cursor lemmas -/

/-- Frame relation between analyzer states: the token vector is unchanged
and the cursor has moved forward, staying within `max pos length`. -/
def Stepped (a b : Analyzer) : Prop :=
  b.tokens = a.tokens ∧ a.pos ≤ b.pos ∧ b.pos ≤ max a.pos a.tokens.length

lemma Stepped.rfl (a : Analyzer) : Stepped a a :=
  ⟨by rfl, Nat.le_refl _, Nat.le_max_left _ _⟩

lemma Stepped.trans {a b c : Analyzer} (h1 : Stepped a b) (h2 : Stepped b c) :
    Stepped a c := by
  obtain ⟨e1, l1, u1⟩ := h1
  obtain ⟨e2, l2, u2⟩ := h2
  refine ⟨e2.trans e1, l1.trans l2, ?_⟩
  rw [e1] at u2
  omega

lemma stepped_advance (a : Analyzer) : Stepped a a.advance := by
  unfold Analyzer.advance
  by_cases h : a.pos < a.tokens.length
  · rw [if_pos h]
    exact ⟨rfl, Nat.le_succ _,
      by show a.pos + 1 ≤ max a.pos a.tokens.length; omega⟩
  · rw [if_neg h]
    exact ⟨rfl, Nat.le_refl _, Nat.le_max_left _ _⟩

lemma advance_tokens (a : Analyzer) : a.advance.tokens = a.tokens := by
  unfold Analyzer.advance; split <;> rfl

lemma advance_pos_of_lt {a : Analyzer} (h : a.pos < a.tokens.length) :
    a.advance.pos = a.pos + 1 := by
  unfold Analyzer.advance; rw [if_pos h]

lemma advance_of_ge {a : Analyzer} (h : a.tokens.length ≤ a.pos) :
    a.advance = a := by
  unfold Analyzer.advance; rw [if_neg (by omega)]

lemma getD_of_ge {α : Type} {l : List α} {n : Nat} (d : α)
    (h : l.length ≤ n) : l.getD n d = d := by
  simp [List.getD, List.getElem?_eq_none h]

/-- When the cursor is past the end, `current` is the Eof sentinel. -/
lemma current_of_ge {a : Analyzer} (h : a.tokens.length ≤ a.pos) :
    a.current = eof_token := by
  unfold Analyzer.current; exact getD_of_ge _ h

/-- A non-`Eof` current token means the cursor is in bounds. -/
lemma pos_lt_of_current_ne_eof {a : Analyzer}
    (h : a.current.kind ≠ .Eof) : a.pos < a.tokens.length := by
  by_contra hge
  rw [current_of_ge (by omega)] at h
  exact h rfl

lemma getD_append_cons {α : Type} (pre suf : List α) (t d : α) :
    (pre ++ t :: suf).getD pre.length d = t := by
  simp [List.getD, List.getElem?_append_right (Nat.le_refl pre.length)]

/-- `expect` succeeds exactly when the current kind matches; on success it
returns the current token and advances. -/
lemma expect_ok {a b : Analyzer} {k : TokenKind} {t : Token}
    (h : a.expect k = .ok (t, b)) :
    t = a.current ∧ b = a.advance ∧ a.current.kind = k := by
  unfold Analyzer.expect at h
  by_cases hk : a.current.kind = k
  · rw [if_pos hk] at h
    injection h with h'
    exact ⟨(congrArg Prod.fst h').symm, (congrArg Prod.snd h').symm, hk⟩
  · rw [if_neg hk] at h
    exact absurd h (by simp)

lemma expect_error_iff (a : Analyzer) (k : TokenKind) :
    (∃ e, a.expect k = .error e) ↔ a.current.kind ≠ k := by
  unfold Analyzer.expect
  constructor
  · rintro ⟨e, he⟩ hk
    rw [if_pos hk] at he
    exact absurd he (by simp)
  · intro hk
    rw [if_neg hk]
    exact ⟨_, rfl⟩

/-- On success `expect` advances past an in-bounds token, provided the
expected kind is not `Eof`. -/
lemma expect_ok_pos {a b : Analyzer} {k : TokenKind} {t : Token}
    (h : a.expect k = .ok (t, b)) (hk : k ≠ .Eof) :
    a.pos < a.tokens.length ∧ b.tokens = a.tokens ∧ b.pos = a.pos + 1 := by
  obtain ⟨-, hb, hcur⟩ := expect_ok h
  have hlt : a.pos < a.tokens.length :=
    pos_lt_of_current_ne_eof (by rw [hcur]; exact hk)
  exact ⟨hlt, by rw [hb, advance_tokens], by rw [hb, advance_pos_of_lt hlt]⟩

lemma eat_cases (a : Analyzer) (k : TokenKind) :
    (a.current.kind = k ∧ a.eat k = (true, a.advance)) ∨
    (a.current.kind ≠ k ∧ a.eat k = (false, a)) := by
  unfold Analyzer.eat
  by_cases h : a.current.kind = k
  · exact Or.inl ⟨h, by rw [if_pos h]⟩
  · exact Or.inr ⟨h, by rw [if_neg h]⟩

lemma stepped_eat (a : Analyzer) (k : TokenKind) : Stepped a (a.eat k).2 := by
  rcases eat_cases a k with ⟨-, h⟩ | ⟨-, h⟩ <;> rw [h]
  · exact stepped_advance a
  · exact Stepped.rfl a

lemma Stepped.tokens_eq {a b : Analyzer} (h : Stepped a b) :
    b.tokens = a.tokens := h.1

lemma Stepped.pos_le {a b : Analyzer} (h : Stepped a b) : a.pos ≤ b.pos :=
  h.2.1

lemma stepped_expect_ok {a b : Analyzer} {k : TokenKind} {t : Token}
    (h : a.expect k = .ok (t, b)) : Stepped a b := by
  obtain ⟨-, hb, -⟩ := expect_ok h
  rw [hb]; exact stepped_advance a

lemma parse_direction_ok {a b : Analyzer} {d : PortDirection}
    (h : a.parse_direction = .ok (d, b)) :
    b = a.advance ∧ a.pos < a.tokens.length := by
  unfold Analyzer.parse_direction at h
  split at h <;>
    first
      | exact Except.noConfusion h
      | (rename_i hk
         injection h with h'
         exact ⟨(congrArg Prod.snd h').symm,
           pos_lt_of_current_ne_eof (by rw [hk]; simp)⟩)

lemma stepped_parse_direction {a b : Analyzer} {d : PortDirection}
    (h : a.parse_direction = .ok (d, b)) :
    Stepped a b ∧ a.pos < b.pos := by
  obtain ⟨hb, hlt⟩ := parse_direction_ok h
  subst hb
  exact ⟨stepped_advance a, by rw [advance_pos_of_lt hlt]; omega⟩

lemma stepped_parse_type {a b : Analyzer} {ty : VhdlType}
    (h : a.parse_type = .ok (ty, b)) :
    Stepped a b ∧ a.pos < b.pos ∧ a.pos < a.tokens.length := by
  unfold Analyzer.parse_type at h
  have step1 : ∀ hk : a.current.kind ≠ TokenKind.Eof,
      Stepped a a.advance ∧ a.pos < a.advance.pos ∧
        a.pos < a.tokens.length := by
    intro hk
    have hlt := pos_lt_of_current_ne_eof hk
    exact ⟨stepped_advance a, by rw [advance_pos_of_lt hlt]; omega, hlt⟩
  split at h
  case _ hk =>
    injection h with h'
    injection h' with hty hb
    subst hb
    exact step1 (by rw [hk]; simp)
  case _ hk =>
    -- StdLogicVector branch
    have base := step1 (by rw [hk]; simp)
    simp only at h
    split at h
    · -- explicit range
      split at h
      · exact Except.noConfusion h
      case _ t1 a3 hexp1 =>
        split at h
        · exact Except.noConfusion h
        case _ t2 a5 hexp2 =>
          split at h
          · exact Except.noConfusion h
          case _ u a6 hexp3 =>
            injection h with h'
            injection h' with hty hb
            subst hb
            have s1 : Stepped a.advance a.advance.advance :=
              stepped_advance _
            have s2 := stepped_expect_ok hexp1
            have s3 : Stepped a3 (if a3.current.kind = TokenKind.Downto ||
                a3.current.kind = TokenKind.To then a3.advance else a3) := by
              split
              · exact stepped_advance a3
              · exact Stepped.rfl a3
            have s4 := stepped_expect_ok hexp2
            have s5 := stepped_expect_ok hexp3
            have htail : Stepped a.advance a6 :=
              (((s1.trans s2).trans s3).trans s4).trans s5
            exact ⟨base.1.trans htail, Nat.lt_of_lt_of_le base.2.1
              htail.pos_le, base.2.2⟩
    · -- no explicit range
      injection h with h'
      injection h' with hty hb
      subst hb
      exact base
  case _ hk =>
    injection h with h'
    injection h' with hty hb
    subst hb
    exact step1 (by rw [hk]; simp)
  case _ hk =>
    injection h with h'
    injection h' with hty hb
    subst hb
    exact step1 (by rw [hk]; simp)
  case _ hk =>
    injection h with h'
    injection h' with hty hb
    subst hb
    exact step1 (by rw [hk]; simp)
  case _ =>
    exact Except.noConfusion h

/-! ## Loop lemmas: frame and fuel sufficiency -/

lemma skip_until_stepped {kinds : List TokenKind} {fuel : Nat}
    {a b : Analyzer} (h : Analyzer.skip_until kinds fuel a = some b) :
    Stepped a b := by
  induction fuel generalizing a with
  | zero => exact Option.noConfusion h
  | succ n ih =>
    unfold Analyzer.skip_until at h
    split at h
    · injection h with h'; subst h'; exact Stepped.rfl a
    · split at h
      · injection h with h'; subst h'; exact Stepped.rfl a
      · exact (stepped_advance a).trans (ih h)

lemma skip_until_suff (kinds : List TokenKind) {fuel : Nat}
    {a : Analyzer} (hf : a.tokens.length - a.pos < fuel) :
    ∃ b, Analyzer.skip_until kinds fuel a = some b := by
  induction fuel generalizing a with
  | zero => omega
  | succ n ih =>
    unfold Analyzer.skip_until
    split
    · exact ⟨a, rfl⟩
    · split
      · exact ⟨a, rfl⟩
      · rename_i h1 h2
        apply ih
        have hlt := pos_lt_of_current_ne_eof h1
        rw [advance_tokens, advance_pos_of_lt hlt]
        omega

lemma port_names_loop_stepped {fuel : Nat} {names ns : List String}
    {a b : Analyzer}
    (h : Analyzer.port_names_loop fuel names a = some (.ok (ns, b))) :
    Stepped a b := by
  induction fuel generalizing names a with
  | zero => exact Option.noConfusion h
  | succ n ih =>
    unfold Analyzer.port_names_loop at h
    split at h
    · split at h
      · exact absurd h (by simp)
      case _ t a2 hexp =>
        exact ((stepped_advance a).trans (stepped_expect_ok hexp)).trans
          (ih h)
    · injection h with h'
      injection h' with h''
      injection h'' with hns hb
      subst hb
      exact Stepped.rfl a

lemma port_names_loop_suff {fuel : Nat} (names : List String)
    {a : Analyzer} (hf : a.tokens.length - a.pos < fuel) :
    ∃ r, Analyzer.port_names_loop fuel names a = some r := by
  induction fuel generalizing names a with
  | zero => omega
  | succ n ih =>
    unfold Analyzer.port_names_loop
    by_cases hk : a.current.kind = .Comma
    · rw [if_pos hk]
      rcases hexp : a.advance.expect .Identifier with e | ⟨t, a2⟩
      · exact ⟨_, rfl⟩
      · have hlt := pos_lt_of_current_ne_eof
          (show a.current.kind ≠ .Eof by rw [hk]; simp)
        have h2 := expect_ok_pos hexp (by simp)
        have hl2 : a2.tokens.length = a.tokens.length := by
          rw [congrArg List.length h2.2.1, advance_tokens]
        have hp2 : a2.pos = a.pos + 2 := by
          rw [h2.2.2, advance_pos_of_lt hlt]
        exact ih _ (by omega)
    · rw [if_neg hk]
      exact ⟨_, rfl⟩

lemma parse_port_group_stepped {fuel : Nat} {ports : List PortDef}
    {a b : Analyzer}
    (h : Analyzer.parse_port_group fuel a = some (.ok (ports, b))) :
    Stepped a b ∧ a.pos < b.pos ∧ a.pos < a.tokens.length := by
  unfold Analyzer.parse_port_group at h
  split at h
  · exact absurd h (by simp)
  case _ t a1 hexp =>
    have h1 := expect_ok_pos hexp (by simp)
    split at h
    · exact Option.noConfusion h
    · exact absurd h (by simp)
    case _ names a2 hloop =>
      split at h
      · exact absurd h (by simp)
      case _ u a3 hcolon =>
        split at h
        · exact absurd h (by simp)
        case _ d a4 hdir =>
          split at h
          · exact absurd h (by simp)
          case _ ty a5 hty =>
            injection h with h'
            injection h' with h''
            injection h'' with hports hb
            subst hb
            have s1 := stepped_expect_ok hexp
            have s2 := port_names_loop_stepped hloop
            have s3 := stepped_expect_ok hcolon
            have s4 := (stepped_parse_direction hdir).1
            have s5 := (stepped_parse_type hty).1
            have hstep := (((s1.trans s2).trans s3).trans s4).trans s5
            refine ⟨hstep, ?_, h1.1⟩
            have := (((s2.trans s3).trans s4).trans s5).pos_le
            omega

lemma parse_port_group_suff {fuel : Nat} {a : Analyzer}
    (hf : a.tokens.length - a.pos ≤ fuel) :
    ∃ r, Analyzer.parse_port_group fuel a = some r := by
  unfold Analyzer.parse_port_group
  rcases hexp : a.expect .Identifier with e | ⟨t, a1⟩
  · exact ⟨_, rfl⟩
  · simp only
    have h1 := expect_ok_pos hexp (by simp)
    have hl1 : a1.tokens.length = a.tokens.length :=
      congrArg List.length h1.2.1
    have hloopf : a1.tokens.length - a1.pos < fuel := by omega
    obtain ⟨r1, hr1⟩ := port_names_loop_suff [t.text] hloopf
    rw [hr1]
    rcases r1 with e | ⟨names, a2⟩
    · exact ⟨_, rfl⟩
    · simp only
      rcases hcolon : a2.expect .Colon with e | ⟨u, a3⟩
      · exact ⟨_, rfl⟩
      · simp only
        rcases hdir : a3.parse_direction with e | ⟨d, a4⟩
        · exact ⟨_, rfl⟩
        · simp only
          rcases hty : a4.parse_type with e | ⟨ty, a5⟩
          · exact ⟨_, rfl⟩
          · exact ⟨_, rfl⟩

lemma parse_port_list_stepped {fuel : Nat} {ports : List PortDef}
    {a b : Analyzer}
    (h : Analyzer.parse_port_list fuel a = some (.ok (ports, b))) :
    Stepped a b := by
  induction fuel generalizing ports a with
  | zero => exact Option.noConfusion h
  | succ n ih =>
    unfold Analyzer.parse_port_list at h
    split at h
    · injection h with h'
      injection h' with h''
      injection h'' with hp hb
      subst hb
      exact Stepped.rfl a
    · split at h
      · exact Option.noConfusion h
      · exact absurd h (by simp)
      case _ group a1 hgrp =>
        split at h
        · exact Option.noConfusion h
        · exact absurd h (by simp)
        case _ ports2 a3 hrest =>
          injection h with h'
          injection h' with h''
          injection h'' with hp hb
          subst hb
          have s1 := (parse_port_group_stepped hgrp).1
          have s2 : Stepped a1 (if a1.current.kind = TokenKind.Semicolon
              then a1.advance else a1) := by
            split
            · exact stepped_advance a1
            · exact Stepped.rfl a1
          exact (s1.trans s2).trans (ih hrest)

lemma parse_port_list_suff {fuel : Nat} {a : Analyzer}
    (hf : a.tokens.length - a.pos < fuel) :
    ∃ r, Analyzer.parse_port_list fuel a = some r := by
  induction fuel generalizing a with
  | zero => omega
  | succ n ih =>
    unfold Analyzer.parse_port_list
    split
    · exact ⟨_, rfl⟩
    · obtain ⟨r, hr⟩ := parse_port_group_suff (a := a)
        (show a.tokens.length - a.pos ≤ n by omega)
      rw [hr]
      rcases r with e | ⟨group, a1⟩
      · exact ⟨_, rfl⟩
      · simp only
        have hs := parse_port_group_stepped hr
        have htok : a1.tokens.length = a.tokens.length :=
          congrArg List.length hs.1.tokens_eq
        have s2 : Stepped a1 (if a1.current.kind = TokenKind.Semicolon
            then a1.advance else a1) := by
          split
          · exact stepped_advance a1
          · exact Stepped.rfl a1
        have htok2 : (if a1.current.kind = TokenKind.Semicolon
            then a1.advance else a1).tokens.length = a.tokens.length := by
          rw [congrArg List.length s2.tokens_eq, htok]
        have hpos2 : a.pos <
            (if a1.current.kind = TokenKind.Semicolon
              then a1.advance else a1).pos :=
          Nat.lt_of_lt_of_le hs.2.1 s2.pos_le
        obtain ⟨r2, hr2⟩ := ih (a := (if a1.current.kind = TokenKind.Semicolon
          then a1.advance else a1)) (by omega)
        rw [hr2]
        rcases r2 with e | ⟨ports, a3⟩
        · exact ⟨_, rfl⟩
        · exact ⟨_, rfl⟩

lemma entity_ports_stepped {fuel : Nat} {ports : List PortDef}
    {a b : Analyzer}
    (h : Analyzer.entity_ports fuel a = some (.ok (ports, b))) :
    Stepped a b := by
  unfold Analyzer.entity_ports at h
  split at h
  · split at h
    · exact absurd h (by simp)
    case _ t a5 hlp =>
      split at h
      · exact Option.noConfusion h
      · exact absurd h (by simp)
      case _ ports2 a6 hlist =>
        split at h
        · exact absurd h (by simp)
        case _ u a7 hrp =>
          split at h
          · exact absurd h (by simp)
          case _ v a8 hsemi =>
            injection h with h'
            injection h' with h''
            injection h'' with hp hb
            subst hb
            exact ((((stepped_advance a).trans
              (stepped_expect_ok hlp)).trans
              (parse_port_list_stepped hlist)).trans
              (stepped_expect_ok hrp)).trans (stepped_expect_ok hsemi)
  · injection h with h'
    injection h' with h''
    injection h'' with hp hb
    subst hb
    exact Stepped.rfl a

lemma entity_ports_suff {fuel : Nat} {a : Analyzer}
    (hf : a.tokens.length - a.pos ≤ fuel + 1) :
    ∃ r, Analyzer.entity_ports fuel a = some r := by
  unfold Analyzer.entity_ports
  split
  case _ hport =>
    rcases hlp : a.advance.expect .LeftParen with e | ⟨t, a5⟩
    · exact ⟨_, rfl⟩
    · simp only
      have hlt := pos_lt_of_current_ne_eof
        (show a.current.kind ≠ .Eof by rw [hport]; simp)
      have h5 := expect_ok_pos hlp (by simp)
      have hl5 : a5.tokens.length = a.tokens.length := by
        rw [congrArg List.length h5.2.1, advance_tokens]
      have hp5 : a5.pos = a.pos + 2 := by
        rw [h5.2.2, advance_pos_of_lt hlt]
      have hadvp : a.advance.pos = a.pos + 1 := advance_pos_of_lt hlt
      have hadvl : a.advance.tokens.length = a.tokens.length :=
        congrArg List.length (advance_tokens a)
      have h51 := h5.1
      obtain ⟨r, hr⟩ := parse_port_list_suff (a := a5)
        (show a5.tokens.length - a5.pos < fuel by omega)
      rw [hr]
      rcases r with e | ⟨ports, a6⟩
      · exact ⟨_, rfl⟩
      · simp only
        rcases hrp : a6.expect .RightParen with e | ⟨u, a7⟩
        · exact ⟨_, rfl⟩
        · simp only
          rcases hsemi : a7.expect .Semicolon with e | ⟨v, a8⟩
          · exact ⟨_, rfl⟩
          · exact ⟨_, rfl⟩
  · exact ⟨_, rfl⟩

lemma parse_entity_stepped {fuel : Nat} {ent : EntityDef} {a b : Analyzer}
    (h : Analyzer.parse_entity fuel a = some (.ok (ent, b))) :
    Stepped a b ∧ a.pos < b.pos ∧ a.pos < a.tokens.length := by
  unfold Analyzer.parse_entity at h
  split at h
  · exact absurd h (by simp)
  case _ t1 a1 hexp1 =>
  split at h
  · exact absurd h (by simp)
  case _ nameTok a2 hexp2 =>
  split at h
  · exact absurd h (by simp)
  case _ t3 a3 hexp3 =>
  split at h
  · exact Option.noConfusion h
  · exact absurd h (by simp)
  case _ ports a9 hports =>
  split at h
  · exact Option.noConfusion h
  case _ a10 hskip =>
    injection h with h'
    injection h' with h''
    injection h'' with hent hb
    subst hb
    have h1 := expect_ok_pos hexp1 (by simp)
    have s1 := stepped_expect_ok hexp1
    have s2 := stepped_expect_ok hexp2
    have s3 := stepped_expect_ok hexp3
    have s4 := entity_ports_stepped hports
    have s5 := skip_until_stepped hskip
    have s6 := stepped_advance a10
    have htail : Stepped a1 a10.advance :=
      ((((s2.trans s3).trans s4).trans s5).trans s6)
    exact ⟨s1.trans htail, by
      have := htail.pos_le
      omega, h1.1⟩

lemma parse_entity_suff {fuel : Nat} {a : Analyzer}
    (hf : a.tokens.length - a.pos ≤ fuel) :
    ∃ r, Analyzer.parse_entity fuel a = some r := by
  unfold Analyzer.parse_entity
  rcases hexp1 : a.expect .Entity with e | ⟨t1, a1⟩
  · exact ⟨_, rfl⟩
  · simp only
    have h1 := expect_ok_pos hexp1 (by simp)
    have hl1 : a1.tokens.length = a.tokens.length :=
      congrArg List.length h1.2.1
    rcases hexp2 : a1.expect .Identifier with e | ⟨nameTok, a2⟩
    · exact ⟨_, rfl⟩
    · simp only
      have h2 := expect_ok_pos hexp2 (by simp)
      have hl2 : a2.tokens.length = a.tokens.length := by
        rw [congrArg List.length h2.2.1, hl1]
      rcases hexp3 : a2.expect .Is with e | ⟨t3, a3⟩
      · exact ⟨_, rfl⟩
      · simp only
        have h3 := expect_ok_pos hexp3 (by simp)
        have hl3 : a3.tokens.length = a.tokens.length := by
          rw [congrArg List.length h3.2.1, hl2]
        obtain ⟨r, hr⟩ := entity_ports_suff (a := a3)
          (show a3.tokens.length - a3.pos ≤ fuel + 1 by omega)
        rw [hr]
        rcases r with e | ⟨ports, a9⟩
        · exact ⟨_, rfl⟩
        · simp only
          have s4 := entity_ports_stepped hr
          have hl9 : a9.tokens.length = a.tokens.length := by
            rw [congrArg List.length s4.tokens_eq, hl3]
          have hp9 : a3.pos ≤ a9.pos := s4.pos_le
          obtain ⟨a10, hskip⟩ := skip_until_suff [TokenKind.Semicolon]
            (a := a9)
            (show a9.tokens.length - a9.pos < fuel by omega)
          rw [hskip]
          exact ⟨_, rfl⟩

lemma parse_default_value_stepped {fuel : Nat} {parts : List String}
    {v : String} {a b : Analyzer}
    (h : Analyzer.parse_default_value fuel parts a = some (v, b)) :
    Stepped a b := by
  induction fuel generalizing parts a with
  | zero => exact Option.noConfusion h
  | succ n ih =>
    unfold Analyzer.parse_default_value at h
    split at h
    · injection h with h'
      injection h' with hv hb
      subst hb
      exact Stepped.rfl a
    · exact (stepped_advance a).trans (ih h)

lemma parse_default_value_suff {fuel : Nat} (parts : List String)
    {a : Analyzer} (hf : a.tokens.length - a.pos < fuel) :
    ∃ r, Analyzer.parse_default_value fuel parts a = some r := by
  induction fuel generalizing parts a with
  | zero => omega
  | succ n ih =>
    unfold Analyzer.parse_default_value
    split
    · exact ⟨_, rfl⟩
    case _ hcond =>
      have hne : a.current.kind ≠ .Eof := by
        intro he
        exact hcond (by rw [he]; simp)
      have hlt := pos_lt_of_current_ne_eof hne
      apply ih
      rw [congrArg List.length (advance_tokens a), advance_pos_of_lt hlt]
      omega

lemma signal_default_stepped {fuel : Nat} {v : Option String}
    {a b : Analyzer}
    (h : Analyzer.signal_default fuel a = some (v, b)) : Stepped a b := by
  unfold Analyzer.signal_default at h
  split at h
  · split at h
    · exact Option.noConfusion h
    case _ w a5 hdv =>
      injection h with h'
      injection h' with hv hb
      subst hb
      exact (stepped_advance a).trans (parse_default_value_stepped hdv)
  · injection h with h'
    injection h' with hv hb
    subst hb
    exact Stepped.rfl a

lemma signal_default_suff {fuel : Nat} {a : Analyzer}
    (hf : a.tokens.length - a.pos ≤ fuel) :
    ∃ r, Analyzer.signal_default fuel a = some r := by
  unfold Analyzer.signal_default
  split
  case _ hasg =>
    have hlt := pos_lt_of_current_ne_eof
      (show a.current.kind ≠ .Eof by rw [hasg]; simp)
    obtain ⟨r, hr⟩ := parse_default_value_suff []
      (a := a.advance)
      (show a.advance.tokens.length - a.advance.pos < fuel by
        rw [congrArg List.length (advance_tokens a), advance_pos_of_lt hlt]
        omega)
    rw [hr]
    exact ⟨_, rfl⟩
  · exact ⟨_, rfl⟩

lemma parse_signal_decl_stepped {fuel : Nat} {sig : SignalDef}
    {a b : Analyzer}
    (h : Analyzer.parse_signal_decl fuel a = some (.ok (sig, b))) :
    Stepped a b ∧ a.pos < b.pos ∧ a.pos < a.tokens.length := by
  unfold Analyzer.parse_signal_decl at h
  split at h
  · exact absurd h (by simp)
  case _ t1 a1 hexp1 =>
  split at h
  · exact absurd h (by simp)
  case _ nameTok a2 hexp2 =>
  split at h
  · exact absurd h (by simp)
  case _ t3 a3 hexp3 =>
  split at h
  · exact absurd h (by simp)
  case _ ty a4 hty =>
  split at h
  · exact Option.noConfusion h
  case _ dv a5 hdflt =>
  split at h
  · exact absurd h (by simp)
  case _ t6 a6 hsemi =>
    injection h with h'
    injection h' with h''
    injection h'' with hsig hb
    subst hb
    have h1 := expect_ok_pos hexp1 (by simp)
    have s1 := stepped_expect_ok hexp1
    have s2 := stepped_expect_ok hexp2
    have s3 := stepped_expect_ok hexp3
    have s4 := (stepped_parse_type hty).1
    have s5 := signal_default_stepped hdflt
    have s6 := stepped_expect_ok hsemi
    have htail : Stepped a1 a6 :=
      ((((s2.trans s3).trans s4).trans s5).trans s6)
    exact ⟨s1.trans htail, by
      have := htail.pos_le
      omega, h1.1⟩

lemma parse_signal_decl_suff {fuel : Nat} {a : Analyzer}
    (hf : a.tokens.length - a.pos ≤ fuel) :
    ∃ r, Analyzer.parse_signal_decl fuel a = some r := by
  unfold Analyzer.parse_signal_decl
  rcases hexp1 : a.expect .Signal with e | ⟨t1, a1⟩
  · exact ⟨_, rfl⟩
  · simp only
    have h1 := expect_ok_pos hexp1 (by simp)
    have hl1 : a1.tokens.length = a.tokens.length :=
      congrArg List.length h1.2.1
    rcases hexp2 : a1.expect .Identifier with e | ⟨nameTok, a2⟩
    · exact ⟨_, rfl⟩
    · simp only
      have h2 := expect_ok_pos hexp2 (by simp)
      have hl2 : a2.tokens.length = a.tokens.length := by
        rw [congrArg List.length h2.2.1, hl1]
      rcases hexp3 : a2.expect .Colon with e | ⟨t3, a3⟩
      · exact ⟨_, rfl⟩
      · simp only
        have h3 := expect_ok_pos hexp3 (by simp)
        have hl3 : a3.tokens.length = a.tokens.length := by
          rw [congrArg List.length h3.2.1, hl2]
        rcases hty : a3.parse_type with e | ⟨ty, a4⟩
        · exact ⟨_, rfl⟩
        · simp only
          have s4 := stepped_parse_type hty
          have hl4 : a4.tokens.length = a.tokens.length := by
            rw [congrArg List.length s4.1.tokens_eq, hl3]
          have hp4 : a3.pos < a4.pos := s4.2.1
          obtain ⟨r, hr⟩ := signal_default_suff (a := a4)
            (show a4.tokens.length - a4.pos ≤ fuel by omega)
          rw [hr]
          rcases r with ⟨dv, a5⟩
          simp only
          rcases hsemi : a5.expect .Semicolon with e | ⟨t6, a6⟩
          · exact ⟨_, rfl⟩
          · exact ⟨_, rfl⟩

lemma arch_decls_stepped {fuel : Nat} {sigs sigs2 : List SignalDef}
    {a b : Analyzer}
    (h : Analyzer.arch_decls fuel sigs a = some (.ok (sigs2, b))) :
    Stepped a b := by
  induction fuel generalizing sigs a with
  | zero => exact Option.noConfusion h
  | succ n ih =>
    unfold Analyzer.arch_decls at h
    split at h
    · injection h with h'
      injection h' with h''
      injection h'' with hs hb
      subst hb
      exact Stepped.rfl a
    · split at h
      · split at h
        · exact Option.noConfusion h
        · exact absurd h (by simp)
        case _ sig a1 hsig =>
          exact ((parse_signal_decl_stepped hsig).1).trans (ih h)
      · exact (stepped_advance a).trans (ih h)

lemma arch_decls_suff {fuel : Nat} (sigs : List SignalDef)
    {a : Analyzer} (hf : a.tokens.length - a.pos < fuel) :
    ∃ r, Analyzer.arch_decls fuel sigs a = some r := by
  induction fuel generalizing sigs a with
  | zero => omega
  | succ n ih =>
    unfold Analyzer.arch_decls
    split
    · exact ⟨_, rfl⟩
    case _ hcond =>
      have hne : a.current.kind ≠ .Eof := by
        intro he
        exact hcond (by rw [he]; simp)
      have hlt := pos_lt_of_current_ne_eof hne
      split
      · obtain ⟨r, hr⟩ := parse_signal_decl_suff (a := a)
          (show a.tokens.length - a.pos ≤ n by omega)
        rw [hr]
        rcases r with e | ⟨sig, a1⟩
        · exact ⟨_, rfl⟩
        · simp only
          have hs := parse_signal_decl_stepped hr
          have hl1 : a1.tokens.length = a.tokens.length :=
            congrArg List.length hs.1.tokens_eq
          have hp1 : a.pos < a1.pos := hs.2.1
          exact ih _ (by omega)
      · apply ih
        rw [congrArg List.length (advance_tokens a), advance_pos_of_lt hlt]
        omega

lemma skip_until_end_architecture_stepped {fuel : Nat} {a b : Analyzer}
    (h : Analyzer.skip_until_end_architecture fuel a = some b) :
    Stepped a b := by
  induction fuel generalizing a with
  | zero => exact Option.noConfusion h
  | succ n ih =>
    unfold Analyzer.skip_until_end_architecture at h
    split at h
    · injection h with h'
      subst h'
      exact Stepped.rfl a
    · split at h
      · split at h
        · exact Option.noConfusion h
        case _ a1 hsk =>
          injection h with h'
          subst h'
          exact (skip_until_stepped hsk).trans (stepped_advance a1)
      · exact (stepped_advance a).trans (ih h)

lemma skip_until_end_architecture_suff {fuel : Nat} {a : Analyzer}
    (hf : a.tokens.length - a.pos + 1 < fuel) :
    ∃ b, Analyzer.skip_until_end_architecture fuel a = some b := by
  induction fuel generalizing a with
  | zero => omega
  | succ n ih =>
    unfold Analyzer.skip_until_end_architecture
    split
    · exact ⟨_, rfl⟩
    case _ hne =>
      have hlt := pos_lt_of_current_ne_eof hne
      split
      · obtain ⟨a1, hsk⟩ := skip_until_suff [TokenKind.Semicolon]
          (a := a) (show a.tokens.length - a.pos < n by omega)
        rw [hsk]
        exact ⟨_, rfl⟩
      · apply ih
        rw [congrArg List.length (advance_tokens a), advance_pos_of_lt hlt]
        omega

lemma parse_architecture_stepped {fuel : Nat} {arch : ArchitectureDef}
    {a b : Analyzer}
    (h : Analyzer.parse_architecture fuel a = some (.ok (arch, b))) :
    Stepped a b ∧ a.pos < b.pos ∧ a.pos < a.tokens.length := by
  unfold Analyzer.parse_architecture at h
  split at h
  · exact absurd h (by simp)
  case _ t1 a1 hexp1 =>
  split at h
  · exact absurd h (by simp)
  case _ archTok a2 hexp2 =>
  split at h
  · exact absurd h (by simp)
  case _ t3 a3 hexp3 =>
  split at h
  · exact absurd h (by simp)
  case _ entTok a4 hexp4 =>
  split at h
  · exact absurd h (by simp)
  case _ t5 a5 hexp5 =>
  split at h
  · exact Option.noConfusion h
  · exact absurd h (by simp)
  case _ signals a6 hdecls =>
  split at h
  · exact Option.noConfusion h
  case _ a7 hskip =>
    injection h with h'
    injection h' with h''
    injection h'' with harch hb
    subst hb
    have h1 := expect_ok_pos hexp1 (by simp)
    have s1 := stepped_expect_ok hexp1
    have s2 := stepped_expect_ok hexp2
    have s3 := stepped_expect_ok hexp3
    have s4 := stepped_expect_ok hexp4
    have s5 := stepped_expect_ok hexp5
    have s6 := arch_decls_stepped hdecls
    have s7 := skip_until_end_architecture_stepped hskip
    have htail : Stepped a1 a7 :=
      ((((s2.trans s3).trans s4).trans s5).trans s6).trans s7
    exact ⟨s1.trans htail, by
      have := htail.pos_le
      omega, h1.1⟩

lemma parse_architecture_suff {fuel : Nat} {a : Analyzer}
    (hf : a.tokens.length - a.pos ≤ fuel) :
    ∃ r, Analyzer.parse_architecture fuel a = some r := by
  unfold Analyzer.parse_architecture
  rcases hexp1 : a.expect .Architecture with e | ⟨t1, a1⟩
  · exact ⟨_, rfl⟩
  · simp only
    have h1 := expect_ok_pos hexp1 (by simp)
    have hl1 : a1.tokens.length = a.tokens.length :=
      congrArg List.length h1.2.1
    rcases hexp2 : a1.expect .Identifier with e | ⟨archTok, a2⟩
    · exact ⟨_, rfl⟩
    · simp only
      have h2 := expect_ok_pos hexp2 (by simp)
      have hl2 : a2.tokens.length = a.tokens.length := by
        rw [congrArg List.length h2.2.1, hl1]
      rcases hexp3 : a2.expect .Of with e | ⟨t3, a3⟩
      · exact ⟨_, rfl⟩
      · simp only
        have h3 := expect_ok_pos hexp3 (by simp)
        have hl3 : a3.tokens.length = a.tokens.length := by
          rw [congrArg List.length h3.2.1, hl2]
        rcases hexp4 : a3.expect .Identifier with e | ⟨entTok, a4⟩
        · exact ⟨_, rfl⟩
        · simp only
          have h4 := expect_ok_pos hexp4 (by simp)
          have hl4 : a4.tokens.length = a.tokens.length := by
            rw [congrArg List.length h4.2.1, hl3]
          rcases hexp5 : a4.expect .Is with e | ⟨t5, a5⟩
          · exact ⟨_, rfl⟩
          · simp only
            have h5 := expect_ok_pos hexp5 (by simp)
            have hl5 : a5.tokens.length = a.tokens.length := by
              rw [congrArg List.length h5.2.1, hl4]
            obtain ⟨r, hr⟩ := arch_decls_suff [] (a := a5)
              (show a5.tokens.length - a5.pos < fuel by omega)
            rw [hr]
            rcases r with e | ⟨signals, a6⟩
            · exact ⟨_, rfl⟩
            · simp only
              have s6 := arch_decls_stepped hr
              have hl6 : a6.tokens.length = a.tokens.length := by
                rw [congrArg List.length s6.tokens_eq, hl5]
              have hp6 : a5.pos ≤ a6.pos := s6.pos_le
              obtain ⟨a7, hskip⟩ := skip_until_end_architecture_suff
                (a := a6)
                (show a6.tokens.length - a6.pos + 1 < fuel by omega)
              rw [hskip]
              exact ⟨_, rfl⟩

lemma analyze_loop_suff {fuel : Nat} {ents : List EntityDef}
    {archs : List ArchitectureDef} {a : Analyzer}
    (hf : a.tokens.length - a.pos < fuel) :
    ∃ r, Analyzer.analyze_loop fuel ents archs a = some r := by
  induction fuel generalizing ents archs a with
  | zero => omega
  | succ n ih =>
    unfold Analyzer.analyze_loop
    split
    · exact ⟨_, rfl⟩
    case _ hne =>
      have hlt := pos_lt_of_current_ne_eof hne
      split
      · obtain ⟨r, hr⟩ := parse_entity_suff (a := a)
          (show a.tokens.length - a.pos ≤ n by omega)
        rw [hr]
        rcases r with e | ⟨ent, a1⟩
        · exact ⟨_, rfl⟩
        · simp only
          have hs := parse_entity_stepped hr
          have hl1 : a1.tokens.length = a.tokens.length :=
            congrArg List.length hs.1.tokens_eq
          have hp1 : a.pos < a1.pos := hs.2.1
          exact ih (by omega)
      · split
        · obtain ⟨r, hr⟩ := parse_architecture_suff (a := a)
            (show a.tokens.length - a.pos ≤ n by omega)
          rw [hr]
          rcases r with e | ⟨arch, a1⟩
          · exact ⟨_, rfl⟩
          · simp only
            have hs := parse_architecture_stepped hr
            have hl1 : a1.tokens.length = a.tokens.length :=
              congrArg List.length hs.1.tokens_eq
            have hp1 : a.pos < a1.pos := hs.2.1
            exact ih (by omega)
        · apply ih
          rw [congrArg List.length (advance_tokens a),
            advance_pos_of_lt hlt]
          omega

/-- `analyze` always returns a result: the fuel passed by `analyze` is
sufficient for every loop in the parser. -/
lemma analyze_total (a : Analyzer) : ∃ r, a.analyze = some r :=
  analyze_loop_suff (by omega)

/-! ## Span tracking -/

/-- Pointwise order on spans. -/
def spanLe (s t : Span) : Prop :=
  s.start ≤ t.start ∧ s.«end» ≤ t.«end»

instance (s t : Span) : Decidable (spanLe s t) := by
  unfold spanLe; infer_instance

lemma spanLe_rfl (s : Span) : spanLe s s :=
  ⟨Nat.le_refl _, Nat.le_refl _⟩

/-- The token vector's spans are monotonically non-decreasing (both
endpoints), as produced by a forward lexer pass. -/
def MonoSpans (ts : List Token) : Prop :=
  List.Pairwise (fun u v => spanLe u.span v.span) ts

/-- Span containment: `outer` covers `inner`. -/
def span_contains (outer inner : Span) : Prop :=
  outer.start ≤ inner.start ∧ inner.«end» ≤ outer.«end»

instance (s t : Span) : Decidable (span_contains s t) := by
  unfold span_contains; infer_instance

lemma monoSpans_getD {ts : List Token} (hm : MonoSpans ts) {i j : Nat}
    (hij : i ≤ j) (hj : j < ts.length) :
    spanLe (ts.getD i eof_token).span (ts.getD j eof_token).span := by
  rcases Nat.lt_or_ge i j with hlt | hge
  · have hi : i < ts.length := Nat.lt_trans hlt hj
    rw [List.getD_eq_getElem ts eof_token hi,
      List.getD_eq_getElem ts eof_token hj]
    exact List.pairwise_iff_getElem.mp hm i j hi hj hlt
  · have heq : i = j := Nat.le_antisymm hij hge
    subst heq
    exact spanLe_rfl _

/-- Every port produced by a port group carries the span of the group's
first token. -/
lemma parse_port_group_spans {fuel : Nat} {ports : List PortDef}
    {a b : Analyzer}
    (h : Analyzer.parse_port_group fuel a = some (.ok (ports, b))) :
    ∀ p ∈ ports, p.span = a.current.span := by
  unfold Analyzer.parse_port_group at h
  split at h
  · exact absurd h (by simp)
  case _ t a1 hexp =>
    split at h
    · exact Option.noConfusion h
    · exact absurd h (by simp)
    case _ names a2 hloop =>
      split at h
      · exact absurd h (by simp)
      case _ u a3 hcolon =>
        split at h
        · exact absurd h (by simp)
        case _ d a4 hdir =>
          split at h
          · exact absurd h (by simp)
          case _ ty a5 hty =>
            injection h with h'
            injection h' with h''
            injection h'' with hports hb
            intro p hp
            rw [← hports] at hp
            simp only [List.mem_map] at hp
            obtain ⟨n, -, hpn⟩ := hp
            rw [← hpn]

/-- Every port produced by a port list comes with the span of some token
at an index between the list's start cursor and its final cursor. -/
lemma parse_port_list_spans {fuel : Nat} {ports : List PortDef}
    {a b : Analyzer}
    (h : Analyzer.parse_port_list fuel a = some (.ok (ports, b))) :
    ∀ p ∈ ports, ∃ i, a.pos ≤ i ∧ i < a.tokens.length ∧ i < b.pos ∧
      p.span = (a.tokens.getD i eof_token).span := by
  induction fuel generalizing ports a with
  | zero => exact Option.noConfusion h
  | succ n ih =>
    unfold Analyzer.parse_port_list at h
    split at h
    · injection h with h'
      injection h' with h''
      injection h'' with hp hb
      rw [← hp]
      intro p hmem
      exact absurd hmem (List.not_mem_nil p)
    · split at h
      · exact Option.noConfusion h
      · exact absurd h (by simp)
      case _ group a1 hgrp =>
        split at h
        · exact Option.noConfusion h
        · exact absurd h (by simp)
        case _ ports2 a3 hrest =>
          injection h with h'
          injection h' with h''
          injection h'' with hp hb
          subst hb
          have hgs := parse_port_group_stepped hgrp
          have s2 : Stepped a1 (if a1.current.kind = TokenKind.Semicolon
              then a1.advance else a1) := by
            split
            · exact stepped_advance a1
            · exact Stepped.rfl a1
          have s3 := parse_port_list_stepped hrest
          intro p hmem
          rw [← hp] at hmem
          rcases List.mem_append.mp hmem with hg | hr
          · refine ⟨a.pos, Nat.le_refl _, hgs.2.2, ?_, ?_⟩
            · exact Nat.lt_of_lt_of_le hgs.2.1
                (Nat.le_trans s2.pos_le s3.pos_le)
            · exact parse_port_group_spans hgrp p hg
          · obtain ⟨i, hi1, hi2, hi3, hi4⟩ := ih hrest p hr
            have htoks : (if a1.current.kind = TokenKind.Semicolon
                then a1.advance else a1).tokens = a.tokens := by
              rw [s2.tokens_eq, hgs.1.tokens_eq]
            refine ⟨i, ?_, ?_, hi3, ?_⟩
            · have := (hgs.1.trans s2).pos_le
              omega
            · rw [← htoks]; exact hi2
            · rw [← htoks]; exact hi4

/-- Ports of the optional entity port clause: token indices between the
clause's start and end cursors. -/
lemma entity_ports_spans {fuel : Nat} {ports : List PortDef}
    {a b : Analyzer}
    (h : Analyzer.entity_ports fuel a = some (.ok (ports, b))) :
    ∀ p ∈ ports, ∃ i, a.pos ≤ i ∧ i < a.tokens.length ∧ i < b.pos ∧
      p.span = (a.tokens.getD i eof_token).span := by
  unfold Analyzer.entity_ports at h
  split at h
  case _ hport =>
    split at h
    · exact absurd h (by simp)
    case _ t a5 hlp =>
      split at h
      · exact Option.noConfusion h
      · exact absurd h (by simp)
      case _ ports2 a6 hlist =>
        split at h
        · exact absurd h (by simp)
        case _ u a7 hrp =>
          split at h
          · exact absurd h (by simp)
          case _ v a8 hsemi =>
            injection h with h'
            injection h' with h''
            injection h'' with hp hb
            subst hb
            have hlt := pos_lt_of_current_ne_eof
              (show a.current.kind ≠ .Eof by rw [hport]; simp)
            have h5 := expect_ok_pos hlp (by simp)
            have hl5 : a5.tokens = a.tokens := by
              rw [h5.2.1, advance_tokens]
            have hp5 : a5.pos = a.pos + 2 := by
              rw [h5.2.2, advance_pos_of_lt hlt]
            have s6 := stepped_expect_ok hrp
            have s7 := stepped_expect_ok hsemi
            intro p hmem
            rw [← hp] at hmem
            obtain ⟨i, hi1, hi2, hi3, hi4⟩ :=
              parse_port_list_spans hlist p hmem
            refine ⟨i, by omega, by rw [← hl5]; exact hi2, ?_, ?_⟩
            · have := (s6.trans s7).pos_le
              omega
            · rw [← hl5]; exact hi4
  · injection h with h'
    injection h' with h''
    injection h'' with hp hb
    rw [← hp]
    intro p hmem
    exact absurd hmem (List.not_mem_nil p)

/-- Span structure of a parsed entity: its start is the span start of the
token at the entry cursor; when its span end is nonzero, the end comes
from a real token at an index bounding all port-span indices from
above. -/
lemma parse_entity_spans {fuel : Nat} {ent : EntityDef} {a b : Analyzer}
    (h : Analyzer.parse_entity fuel a = some (.ok (ent, b))) :
    a.pos < a.tokens.length ∧
    ent.span.start = (a.tokens.getD a.pos eof_token).span.start ∧
    (ent.span.«end» ≠ 0 → ∃ j, j < a.tokens.length ∧
      ent.span.«end» = (a.tokens.getD j eof_token).span.«end» ∧
      ∀ p ∈ ent.ports, ∃ i, a.pos ≤ i ∧ i ≤ j ∧ i < a.tokens.length ∧
        p.span = (a.tokens.getD i eof_token).span) := by
  unfold Analyzer.parse_entity at h
  split at h
  · exact absurd h (by simp)
  case _ t1 a1 hexp1 =>
  split at h
  · exact absurd h (by simp)
  case _ nameTok a2 hexp2 =>
  split at h
  · exact absurd h (by simp)
  case _ t3 a3 hexp3 =>
  split at h
  · exact Option.noConfusion h
  · exact absurd h (by simp)
  case _ ports a9 hports =>
  split at h
  · exact Option.noConfusion h
  case _ a10 hskip =>
    injection h with h'
    injection h' with h''
    injection h'' with hent hb
    subst hb
    have h1 := expect_ok_pos hexp1 (by simp)
    have s1 := stepped_expect_ok hexp1
    have s2 := stepped_expect_ok hexp2
    have s3 := stepped_expect_ok hexp3
    have s4 := entity_ports_stepped hports
    have s5 := skip_until_stepped hskip
    have htok10 : a10.tokens = a.tokens := by
      rw [s5.tokens_eq, s4.tokens_eq, s3.tokens_eq, s2.tokens_eq,
        s1.tokens_eq]
    have htok3 : a3.tokens = a.tokens := by
      rw [s3.tokens_eq, s2.tokens_eq, s1.tokens_eq]
    refine ⟨h1.1, by rw [← hent]; rfl, ?_⟩
    intro hne
    by_cases h10 : a10.pos < a10.tokens.length
    · refine ⟨a10.pos, by rw [← htok10]; exact h10, ?_, ?_⟩
      · rw [← hent]
        show a10.current.span.«end» =
          (a.tokens.getD a10.pos eof_token).span.«end»
        rw [show a10.current = a10.tokens.getD a10.pos eof_token from rfl,
          htok10]
      · intro p hp
        obtain ⟨i, hi1, hi2, hi3, hi4⟩ := entity_ports_spans hports p
          (by rw [← hent] at hp; exact hp)
        have hchain : a.pos ≤ a3.pos := (s1.trans (s2.trans s3)).pos_le
        refine ⟨i, by omega, ?_, by rw [← htok3]; exact hi2, ?_⟩
        · have := s5.pos_le
          omega
        · rw [← htok3]; exact hi4
    · exfalso
      apply hne
      rw [← hent]
      show a10.current.span.«end» = 0
      rw [current_of_ge (by omega)]
      rfl

/-- Span structure of a parsed signal declaration. -/
lemma parse_signal_decl_spans {fuel : Nat} {sig : SignalDef}
    {a b : Analyzer}
    (h : Analyzer.parse_signal_decl fuel a = some (.ok (sig, b))) :
    a.pos < a.tokens.length ∧
    ∃ j, a.pos ≤ j ∧ j < a.tokens.length ∧ j < b.pos ∧
      sig.span.start = (a.tokens.getD a.pos eof_token).span.start ∧
      sig.span.«end» = (a.tokens.getD j eof_token).span.«end» := by
  unfold Analyzer.parse_signal_decl at h
  split at h
  · exact absurd h (by simp)
  case _ t1 a1 hexp1 =>
  split at h
  · exact absurd h (by simp)
  case _ nameTok a2 hexp2 =>
  split at h
  · exact absurd h (by simp)
  case _ t3 a3 hexp3 =>
  split at h
  · exact absurd h (by simp)
  case _ ty a4 hty =>
  split at h
  · exact Option.noConfusion h
  case _ dv a5 hdflt =>
  split at h
  · exact absurd h (by simp)
  case _ t6 a6 hsemi =>
    injection h with h'
    injection h' with h''
    injection h'' with hsig hb
    subst hb
    have h1 := expect_ok_pos hexp1 (by simp)
    have s1 := stepped_expect_ok hexp1
    have s2 := stepped_expect_ok hexp2
    have s3 := stepped_expect_ok hexp3
    have s4 := (stepped_parse_type hty).1
    have s5 := signal_default_stepped hdflt
    have h6 := expect_ok_pos hsemi (by simp)
    have htok5 : a5.tokens = a.tokens := by
      rw [s5.tokens_eq, s4.tokens_eq, s3.tokens_eq, s2.tokens_eq,
        s1.tokens_eq]
    have hchain : a.pos ≤ a5.pos :=
      (s1.trans (s2.trans (s3.trans (s4.trans s5)))).pos_le
    have h5lt : a5.pos < a5.tokens.length := h6.1
    refine ⟨h1.1, a5.pos, hchain, by rw [← htok5]; exact h5lt, ?_, ?_, ?_⟩
    · rw [h6.2.2]; omega
    · rw [← hsig]; rfl
    · rw [← hsig]
      show a5.current.span.«end» =
        (a.tokens.getD a5.pos eof_token).span.«end»
      rw [show a5.current = a5.tokens.getD a5.pos eof_token from rfl,
        htok5]

/-- Span structure of the signals collected by the declarative-part
loop: each new signal's span endpoints come from tokens between the loop
entry cursor and the final cursor. -/
lemma arch_decls_spans {fuel : Nat} {sigs sigs2 : List SignalDef}
    {a b : Analyzer}
    (h : Analyzer.arch_decls fuel sigs a = some (.ok (sigs2, b))) :
    ∀ g ∈ sigs2, g ∈ sigs ∨ ∃ i j, a.pos ≤ i ∧ i ≤ j ∧
      j < a.tokens.length ∧ j < b.pos ∧
      g.span.start = (a.tokens.getD i eof_token).span.start ∧
      g.span.«end» = (a.tokens.getD j eof_token).span.«end» := by
  induction fuel generalizing sigs a with
  | zero => exact Option.noConfusion h
  | succ n ih =>
    unfold Analyzer.arch_decls at h
    split at h
    · injection h with h'
      injection h' with h''
      injection h'' with hs hb
      intro g hmem
      rw [← hs] at hmem
      exact Or.inl hmem
    · split at h
      · split at h
        · exact Option.noConfusion h
        · exact absurd h (by simp)
        case _ sig a1 hsig =>
          intro g hmem
          rcases ih h g hmem with hin | ⟨i, j, hi, hij, hj, hjb, hs, he⟩
          · rcases List.mem_append.mp hin with hold | hnew
            · exact Or.inl hold
            · right
              have hone : g = sig := by
                rcases hnew with _ | _
                · rfl
                · exact absurd (by assumption) (List.not_mem_nil g)
              subst hone
              obtain ⟨hlt, j, hj1, hj2, hj3, hstart, hend⟩ :=
                parse_signal_decl_spans hsig
              have hds := arch_decls_stepped h
              have hss := (parse_signal_decl_stepped hsig).1
              exact ⟨a.pos, j, Nat.le_refl _, hj1, hj2,
                Nat.lt_of_lt_of_le hj3 hds.pos_le, hstart, hend⟩
          · right
            have hss := (parse_signal_decl_stepped hsig).1
            have htok : a1.tokens = a.tokens := hss.tokens_eq
            have hpos : a.pos ≤ a1.pos := hss.pos_le
            rw [htok] at hj hs he
            exact ⟨i, j, by omega, hij, hj, hjb, hs, he⟩
      · intro g hmem
        rcases ih h g hmem with hin | ⟨i, j, hi, hij, hj, hjb, hs, he⟩
        · exact Or.inl hin
        · right
          have htok : a.advance.tokens = a.tokens := advance_tokens a
          have hpos : a.pos ≤ a.advance.pos := (stepped_advance a).pos_le
          rw [htok] at hj hs he
          exact ⟨i, j, by omega, hij, hj, hjb, hs, he⟩

/-- Span structure of a parsed architecture: the start comes from the
token at the entry cursor, the end from a real token bounding all signal
span indices from above. -/
lemma parse_architecture_spans {fuel : Nat} {arch : ArchitectureDef}
    {a b : Analyzer}
    (h : Analyzer.parse_architecture fuel a = some (.ok (arch, b))) :
    a.pos < a.tokens.length ∧
    arch.span.start = (a.tokens.getD a.pos eof_token).span.start ∧
    ∃ j, j < a.tokens.length ∧
      arch.span.«end» = (a.tokens.getD j eof_token).span.«end» ∧
      ∀ g ∈ arch.signals, ∃ i i2, a.pos ≤ i ∧ i ≤ i2 ∧ i2 ≤ j ∧
        i2 < a.tokens.length ∧
        g.span.start = (a.tokens.getD i eof_token).span.start ∧
        g.span.«end» = (a.tokens.getD i2 eof_token).span.«end» := by
  unfold Analyzer.parse_architecture at h
  split at h
  · exact absurd h (by simp)
  case _ t1 a1 hexp1 =>
  split at h
  · exact absurd h (by simp)
  case _ archTok a2 hexp2 =>
  split at h
  · exact absurd h (by simp)
  case _ t3 a3 hexp3 =>
  split at h
  · exact absurd h (by simp)
  case _ entTok a4 hexp4 =>
  split at h
  · exact absurd h (by simp)
  case _ t5 a5 hexp5 =>
  split at h
  · exact Option.noConfusion h
  · exact absurd h (by simp)
  case _ signals a6 hdecls =>
  split at h
  · exact Option.noConfusion h
  case _ a7 hskip =>
    injection h with h'
    injection h' with h''
    injection h'' with harch hb
    subst hb
    have h1 := expect_ok_pos hexp1 (by simp)
    have s1 := stepped_expect_ok hexp1
    have s2 := stepped_expect_ok hexp2
    have s3 := stepped_expect_ok hexp3
    have s4 := stepped_expect_ok hexp4
    have s5 := stepped_expect_ok hexp5
    have s6 := arch_decls_stepped hdecls
    have s7 := skip_until_end_architecture_stepped hskip
    have htok5 : a5.tokens = a.tokens := by
      rw [s5.tokens_eq, s4.tokens_eq, s3.tokens_eq, s2.tokens_eq,
        s1.tokens_eq]
    have htok7 : a7.tokens = a.tokens := by
      rw [s7.tokens_eq, s6.tokens_eq, htok5]
    have hp1 : a1.pos = a.pos + 1 := h1.2.2
    have hchain5 : a.pos + 1 ≤ a5.pos := by
      have := (s2.trans (s3.trans s4)).trans s5 |>.pos_le
      omega
    have hchain6 : a5.pos ≤ a6.pos := s6.pos_le
    have hchain7 : a6.pos ≤ a7.pos := s7.pos_le
    -- cursor stays within bounds
    have hbound : a7.pos ≤ a.tokens.length := by
      have hb1 := (s1.trans (s2.trans (s3.trans (s4.trans (s5.trans
        (s6.trans s7)))))).2.2
      have := h1.1
      omega
    have h7pos : 1 ≤ a7.pos := by omega
    have hjlt : a7.pos - 1 < a.tokens.length := by
      have := h1.1
      omega
    have hget : a7.tokens.get? (a7.pos - 1) =
        some (a.tokens.getD (a7.pos - 1) eof_token) := by
      rw [htok7]
      rw [List.getD_eq_getElem _ _ hjlt]
      exact List.get?_eq_get hjlt
    refine ⟨h1.1, by rw [← harch]; rfl, a7.pos - 1, hjlt, ?_, ?_⟩
    · rw [← harch]
      show (((a7.tokens.get? (a7.pos - 1)).map Token.span).getD
        a.current.span).«end» = _
      rw [hget]
      rfl
    · intro g hmem
      rw [← harch] at hmem
      rcases arch_decls_spans hdecls g hmem with hin |
        ⟨i, j, hi, hij, hj, hjb, hs, he⟩
      · exact absurd hin (List.not_mem_nil g)
      · rw [htok5] at hj hs he
        refine ⟨i, j, by omega, hij, by omega, hj, hs, he⟩

/-! ## Span containment -/

/-- The claim's containment property for an entity, guarded on a nonzero
span end (a zero end arises from the Eof sentinel when the closing
semicolon scan runs off the end of the stream). -/
def EntityContained (e : EntityDef) : Prop :=
  e.span.«end» ≠ 0 → ∀ p ∈ e.ports, span_contains e.span p.span

/-- The claim's containment property for an architecture. -/
def ArchContained (x : ArchitectureDef) : Prop :=
  ∀ g ∈ x.signals, span_contains x.span g.span

instance (e : EntityDef) : Decidable (EntityContained e) := by
  unfold EntityContained; infer_instance

instance (x : ArchitectureDef) : Decidable (ArchContained x) := by
  unfold ArchContained; infer_instance

lemma parse_entity_contained {fuel : Nat} {ent : EntityDef}
    {a b : Analyzer} (hm : MonoSpans a.tokens)
    (h : Analyzer.parse_entity fuel a = some (.ok (ent, b))) :
    EntityContained ent := by
  intro hne p hp
  obtain ⟨hlt, hstart, hrest⟩ := parse_entity_spans h
  obtain ⟨j, hj, hend, hall⟩ := hrest hne
  obtain ⟨i, hi1, hi2, hi3, hspan⟩ := hall p hp
  constructor
  · rw [hstart, hspan]
    exact (monoSpans_getD hm hi1 hi3).1
  · rw [hend, hspan]
    exact (monoSpans_getD hm hi2 hj).2

lemma parse_architecture_contained {fuel : Nat} {arch : ArchitectureDef}
    {a b : Analyzer} (hm : MonoSpans a.tokens)
    (h : Analyzer.parse_architecture fuel a = some (.ok (arch, b))) :
    ArchContained arch := by
  intro g hg
  obtain ⟨hlt, hstart, j, hj, hend, hall⟩ := parse_architecture_spans h
  obtain ⟨i, i2, hi, hii2, hi2j, hi2lt, hgs, hge⟩ := hall g hg
  constructor
  · rw [hstart, hgs]
    exact (monoSpans_getD hm hi (by omega)).1
  · rw [hend, hge]
    exact (monoSpans_getD hm hi2j hj).2

lemma analyze_loop_contained {fuel : Nat} {ents : List EntityDef}
    {archs : List ArchitectureDef} {a : Analyzer} {res : AnalyzeResult}
    (hm : MonoSpans a.tokens)
    (hents : ∀ e ∈ ents, EntityContained e)
    (harchs : ∀ x ∈ archs, ArchContained x)
    (h : Analyzer.analyze_loop fuel ents archs a = some (.ok res)) :
    (∀ e ∈ res.entities, EntityContained e) ∧
    (∀ x ∈ res.architectures, ArchContained x) := by
  induction fuel generalizing ents archs a with
  | zero => exact Option.noConfusion h
  | succ n ih =>
    unfold Analyzer.analyze_loop at h
    split at h
    · injection h with h'
      injection h' with h''
      rw [← h'']
      exact ⟨hents, harchs⟩
    · split at h
      · split at h
        · exact Option.noConfusion h
        · exact absurd h (by simp)
        case _ ent a1 hent =>
          have hm1 : MonoSpans a1.tokens := by
            rw [(parse_entity_stepped hent).1.tokens_eq]
            exact hm
          refine ih hm1 ?_ harchs h
          intro e he
          rcases List.mem_append.mp he with hold | hnew
          · exact hents e hold
          · have : e = ent := List.mem_singleton.mp hnew
            subst this
            exact parse_entity_contained hm hent
      · split at h
        · split at h
          · exact Option.noConfusion h
          · exact absurd h (by simp)
          case _ arch a1 harch =>
            have hm1 : MonoSpans a1.tokens := by
              rw [(parse_architecture_stepped harch).1.tokens_eq]
              exact hm
            refine ih hm1 hents ?_ h
            intro x hx
            rcases List.mem_append.mp hx with hold | hnew
            · exact harchs x hold
            · have : x = arch := List.mem_singleton.mp hnew
              subst this
              exact parse_architecture_contained hm harch
        · have hm1 : MonoSpans a.advance.tokens := by
            rw [advance_tokens]
            exact hm
          exact ih hm1 hents harchs h

lemma monoSpans_filter {ts : List Token} {p : Token → Bool}
    (hm : MonoSpans ts) : MonoSpans (ts.filter p) :=
  List.Pairwise.sublist (List.filter_sublist ts) hm

/-! ## Claim C2 -/

instance (ts : List Token) : Decidable (MonoSpans ts) := by
  unfold MonoSpans; infer_instance

/-- Helper for building concrete ports in examples. -/
def mkPort (d : PortDirection) (ty : VhdlType) (s e : Nat) (n : String) :
    PortDef :=
  { name := n, direction := d, vhdl_type := ty, span := ⟨s, e⟩ }

/-- Helper for building concrete signals in examples. -/
def mkSignal (ty : VhdlType) (dv : Option String) (s e : Nat)
    (n : String) : SignalDef :=
  { name := n, vhdl_type := ty, default_value := dv, span := ⟨s, e⟩ }

/-- Helper for building concrete entities in examples. -/
def mkEntity (ports : List PortDef) (s e : Nat) (n : String) : EntityDef :=
  { name := n, ports := ports, span := ⟨s, e⟩ }

/-- Helper for building concrete architectures in examples. -/
def mkArch (signals : List SignalDef) (s e : Nat) (n en : String) :
    ArchitectureDef :=
  { name := n, entity_name := en, signals := signals, span := ⟨s, e⟩ }

/-- The token vector of `entity e is port(a : in std_logic);` — a lexer
output whose entity is never closed by a further semicolon, so the
closing scan of `parse_entity` runs to end of stream and reads the Eof
sentinel's span `(0,0)` as the entity's span end. -/
def c2cexToks : List Token :=
  [mkTok .Entity 0 6 "entity", mkTok .Identifier 7 8 "e",
   mkTok .Is 9 11 "is", mkTok .Port 12 16 "port",
   mkTok .LeftParen 16 17 "(", mkTok .Identifier 17 18 "a",
   mkTok .Colon 19 20 ":", mkTok .In 21 23 "in",
   mkTok .StdLogic 24 33 "std_logic", mkTok .RightParen 33 34 ")",
   mkTok .Semicolon 34 35 ";"]

/-- C2 counterexample: on the token vector of
`entity e is port(a : in std_logic);` (spans monotone, straight from the
lexer), `analyze` returns Ok with an entity whose span is `(0,0)` while
its port's span is `(17,18)`: the entity's span does not contain the
port's span. -/
theorem vig_c2_cex :
    (Analyzer.new c2cexToks).analyze = some (.ok
      { entities := [mkEntity [mkPort .In .StdLogic 17 18 "a"] 0 0 "e"],
        architectures := [] }) ∧
    MonoSpans c2cexToks ∧
    ¬ span_contains (⟨0, 0⟩ : Span) (⟨17, 18⟩ : Span) :=
  ⟨by rfl, by decide, by decide⟩

/-- C2 (amended): for every token vector with monotonically
non-decreasing spans on which `analyze` returns Ok, every architecture's
span contains the spans of all its signals, and every entity whose span
end is nonzero contains the spans of all its ports.  (An entity span end
of 0 arises when the closing-semicolon scan runs off the end of the
stream and reads the Eof sentinel's `(0,0)` span.) -/
theorem vig_c2 (tokens : List Token) (res : AnalyzeResult)
    (hmono : MonoSpans tokens)
    (hrun : (Analyzer.new tokens).analyze = some (.ok res)) :
    (∀ e ∈ res.entities, EntityContained e) ∧
    (∀ x ∈ res.architectures, ArchContained x) := by
  have hm2 : MonoSpans (Analyzer.new tokens).tokens := monoSpans_filter hmono
  unfold Analyzer.analyze at hrun
  exact analyze_loop_contained hm2
    (by intro e he; exact absurd he (List.not_mem_nil e))
    (by intro x hx; exact absurd hx (List.not_mem_nil x)) hrun

/-- Token vector of a well-formed entity plus architecture, used as the
C2 witness input. -/
def c2wToks : List Token :=
  [mkTok .Entity 0 6 "entity", mkTok .Identifier 7 8 "e",
   mkTok .Is 9 11 "is", mkTok .Port 12 16 "port",
   mkTok .LeftParen 16 17 "(", mkTok .Identifier 17 18 "a",
   mkTok .Colon 19 20 ":", mkTok .In 21 23 "in",
   mkTok .StdLogic 24 33 "std_logic", mkTok .RightParen 33 34 ")",
   mkTok .Semicolon 34 35 ";", mkTok .End 36 39 "end",
   mkTok .Entity 40 46 "entity", mkTok .Identifier 47 48 "e",
   mkTok .Semicolon 48 49 ";", mkTok .Architecture 50 62 "architecture",
   mkTok .Identifier 63 64 "r", mkTok .Of 65 67 "of",
   mkTok .Identifier 68 69 "e", mkTok .Is 70 72 "is",
   mkTok .Signal 73 79 "signal", mkTok .Identifier 80 81 "s",
   mkTok .Colon 82 83 ":", mkTok .StdLogic 84 93 "std_logic",
   mkTok .Semicolon 93 94 ";", mkTok .Begin 95 100 "begin",
   mkTok .End 101 104 "end", mkTok .Architecture 105 117 "architecture",
   mkTok .Semicolon 117 118 ";"]

/-- The analysis result of `c2wToks`. -/
def c2wRes : AnalyzeResult :=
  { entities := [mkEntity [mkPort .In .StdLogic 17 18 "a"] 0 49 "e"],
    architectures :=
      [mkArch [mkSignal .StdLogic none 73 94 "s"] 50 118 "r" "e"] }

/-- Witness for C2 at a concrete monotone token vector. -/
theorem vig_c2_witness :
    (∀ e ∈ c2wRes.entities, EntityContained e) ∧
    (∀ x ∈ c2wRes.architectures, ArchContained x) :=
  vig_c2 c2wToks c2wRes (by decide) (by rfl)

/-! ## Lexer position lemmas -/

lemma advance_position_of_current {l : Lexer} {c : Char}
    (h : l.current = some c) :
    l.advance = ⟨l.position + c.utf8Size, l.rest.tail⟩ := by
  rcases l with ⟨pos, rest⟩
  cases rest with
  | nil => exact Option.noConfusion h
  | cons c2 cs =>
    unfold Lexer.current at h
    simp only [List.head?] at h
    injection h with h'
    subst h'
    rfl

lemma advance_pos_lt_of_current {l : Lexer} {c : Char}
    (h : l.current = some c) : l.position < l.advance.position := by
  rw [advance_position_of_current h]
  show l.position < l.position + c.utf8Size
  have := Char.utf8Size_pos c
  omega

lemma advance_position_le (l : Lexer) : l.position ≤ l.advance.position := by
  rcases l with ⟨pos, rest⟩
  cases rest with
  | nil => exact Nat.le_refl _
  | cons c cs => exact Nat.le_add_right _ _

lemma skip_whitespace_position_le (l : Lexer) :
    l.position ≤ l.skip_whitespace.position :=
  Nat.le_add_right _ _

lemma lex_string_loop_pos (start : Nat) (text : String) (pos : Nat)
    (cs : List Char) :
    pos ≤ (lex_string_loop start text pos cs).2.position := by
  induction cs generalizing text pos with
  | nil => exact Nat.le_refl _
  | cons c cs ih =>
    unfold lex_string_loop
    split
    · show pos ≤ pos + c.utf8Size
      exact Nat.le_add_right _ _
    · exact Nat.le_trans (Nat.le_add_right pos c.utf8Size) (ih _ _)

lemma lex_string_literal_pos {l : Lexer} {c : Char} (start : Nat)
    (h : l.current = some c) :
    l.position < (Lexer.lex_string_literal l start).2.position := by
  unfold Lexer.lex_string_literal
  exact Nat.lt_of_lt_of_le (advance_pos_lt_of_current h)
    (lex_string_loop_pos _ _ _ _)

lemma lex_character_pos {l : Lexer} {c : Char} (start : Nat)
    (h : l.current = some c) :
    l.position < (Lexer.lex_character l start).2.position := by
  unfold Lexer.lex_character
  have h1 := advance_pos_lt_of_current h
  have h2 := advance_position_le l.advance
  have h3 := advance_position_le l.advance.advance
  split
  case _ ch heq =>
    split
    case _ c2 heq2 =>
      split
      · show l.position < l.advance.advance.advance.position
        omega
      · show l.position < l.advance.advance.position
        omega
    case _ heq2 =>
      show l.position < l.advance.advance.position
      omega
  case _ heq =>
    show l.position < l.advance.position
    omega

/-- On any error from the classification step, the returned state is
strictly beyond the input state. -/
lemma next_token_at_error_pos {l l2 : Lexer} {e : LexError}
    (h : l.next_token_at = (.error e, l2)) : l.position < l2.position := by
  unfold Lexer.next_token_at at h
  split at h
  · injection h with h1 h2
    exact Except.noConfusion h1
  case _ ch hcur =>
    split at h
    · injection h with h1 h2
      exact Except.noConfusion h1
    split at h
    · injection h with h1 h2
      exact Except.noConfusion h1
    split at h
    · have := lex_string_literal_pos (c := ch) l.position hcur
      rw [h] at this
      exact this
    split at h
    · have := lex_character_pos (c := ch) l.position hcur
      rw [h] at this
      exact this
    split at h
    · injection h with h1 h2
      exact Except.noConfusion h1
    · split at h
      · injection h with h1 h2
        exact Except.noConfusion h1
      · injection h with h1 h2
        rw [← h2]
        exact advance_pos_lt_of_current hcur

/-! ## Claim C8 -/

/-- Source string consisting of the single unrecognized character `@`. -/
def c8src : String := "@"

/-- C8: (i) when the character after the whitespace skip begins no
recognized construct, `next_token` returns the "unexpected character"
error after consuming exactly that character (the span covers its UTF-8
bytes and the remaining characters lose exactly its head); (ii) every
`next_token` call that returns an error strictly advances the byte
position. -/
theorem vig_c8 :
    (∀ (l : Lexer) (ch : Char),
      l.skip_whitespace.current = some ch →
      (ch.isAlpha || ch == '_') = false →
      ch.isDigit = false →
      (ch == '"') = false →
      (ch == '\'') = false →
      ((ch == '-') && (l.skip_whitespace.peek == some '-')) = false →
      l.skip_whitespace.try_symbol ch = none →
      l.next_token =
        (.error { message := "unexpected character",
                  span := ⟨l.skip_whitespace.position,
                           l.skip_whitespace.position + ch.utf8Size⟩ },
          { position := l.skip_whitespace.position + ch.utf8Size,
            rest := l.skip_whitespace.rest.tail })) ∧
    (∀ (l l2 : Lexer) (e : LexError),
      l.next_token = (.error e, l2) → l.position < l2.position) := by
  constructor
  · intro l ch hcur h1 h2 h3 h4 h5 h6
    unfold Lexer.next_token Lexer.next_token_at
    rw [hcur]
    simp only [h1, h2, h3, h4, h5, h6, Bool.false_eq_true, if_false]
    rw [advance_position_of_current hcur]
  · intro l l2 e h
    unfold Lexer.next_token at h
    exact Nat.lt_of_le_of_lt (skip_whitespace_position_le l)
      (next_token_at_error_pos h)

/-- Witness for C8 at the concrete source `@`. -/
theorem vig_c8_witness :
    (Lexer.new c8src).next_token =
      (.error { message := "unexpected character", span := ⟨0, 1⟩ },
        { position := 1, rest := [] }) :=
  vig_c8.1 (Lexer.new c8src) '@' (by rfl) (by decide) (by decide)
    (by decide) (by decide) (by decide) (by rfl)

/-! ## Claim C1 -/

/-- The successfully lexed tokens of a source string (the
`filter_map(|r| r.ok())` of the convenience entry point). -/
def lex_ok_tokens (source : String) : List Token :=
  (tokenize source).filterMap Except.toOption

/-- C1: `analyze_vhdl` analyzes exactly the successfully lexed tokens
and never surfaces a lexical error: its result is a function of the
ok-projection of the lex stream alone, so any two sources with the same
successfully lexed tokens (whatever lexical errors each produces) get
identical analysis results. -/
theorem vig_c1 :
    (∀ source : String,
      analyze_vhdl source = (Analyzer.new (lex_ok_tokens source)).analyze) ∧
    (∀ s1 s2 : String, lex_ok_tokens s1 = lex_ok_tokens s2 →
      analyze_vhdl s1 = analyze_vhdl s2) := by
  constructor
  · intro source
    rfl
  · intro s1 s2 h
    show (Analyzer.new (lex_ok_tokens s1)).analyze =
      (Analyzer.new (lex_ok_tokens s2)).analyze
    rw [h]

/-- A source whose lex stream ends in an "unexpected character" error on
the caret. -/
def c1srcA : String := "a^"

/-- A source whose lex stream ends in an "unexpected character" error on
the percent sign. -/
def c1srcB : String := "a%"

/-- Witness for C1: the two sources lex to the same ok-token list (an
identifier at bytes 0..1) but different errors; the combined entry point
cannot tell them apart. -/
theorem vig_c1_witness : analyze_vhdl c1srcA = analyze_vhdl c1srcB :=
  vig_c1.2 c1srcA c1srcB (by rfl)

/-! ## Claim C3 -/

/-- The source `--ab`: a line comment with body `ab`. -/
def c3src : String := "--ab"

/-- C3 (code bug evidence): lexing `--ab` yields a single `Comment`
token whose text is `-ab` — the second hyphen is retained.  The single
`advance()` in `lex_comment` (annotated in the source as skipping the
second hyphen) consumes the first hyphen only, and `consume_while` then
starts at the second hyphen, so the token text is not the comment body
alone as the claim states. -/
theorem vig_c3 :
    tokenize c3src = [.ok (mkTok .Comment 0 4 "-ab")] := by rfl

/-! ## Claim C10 -/

/-- C10: for every finite token vector, `analyze` terminates with a
result: either an `AnalyzeResult` or an `AnalyzeError` (the fuel
`analyze` passes to its loops is proven sufficient, each loop iteration
strictly advancing the cursor or exiting). -/
theorem vig_c10 (tokens : List Token) :
    ∃ r : Except AnalyzeError AnalyzeResult,
      (Analyzer.new tokens).analyze = some r :=
  analyze_total (Analyzer.new tokens)

/-! ## Concrete-shape stepping helpers -/

lemma advance_eq_of_lt {a : Analyzer} (h : a.pos < a.tokens.length) :
    a.advance = ⟨a.tokens, a.pos + 1⟩ := by
  unfold Analyzer.advance
  rw [if_pos h]

lemma expect_ok_of {a : Analyzer} {k : TokenKind} (h : a.current.kind = k)
    (hlt : a.pos < a.tokens.length) :
    a.expect k = .ok (a.current, ⟨a.tokens, a.pos + 1⟩) := by
  unfold Analyzer.expect
  rw [if_pos h, advance_eq_of_lt hlt]

/-! ## Claim C4 -/

/-- `parse_type` on an explicit vector range: the first number goes to
`high`, the second to `low`, whichever direction keyword stands between
them. -/
lemma parse_type_range_eq
    (t1 t2 t3 t4 t5 t6 : Token) (rest : List Token)
    (h1 : t1.kind = .StdLogicVector) (h2 : t2.kind = .LeftParen)
    (h3 : t3.kind = .Number) (h4 : t4.kind = .Downto ∨ t4.kind = .To)
    (h5 : t5.kind = .Number) (h6 : t6.kind = .RightParen) :
    Analyzer.parse_type ⟨t1 :: t2 :: t3 :: t4 :: t5 :: t6 :: rest, 0⟩ =
      .ok (.StdLogicVector ((rustParseI64 t3.text).getD 0)
            ((rustParseI64 t5.text).getD 0),
        ⟨t1 :: t2 :: t3 :: t4 :: t5 :: t6 :: rest, 6⟩) := by
  have hlen : ∀ p, p < 6 →
      p < (t1 :: t2 :: t3 :: t4 :: t5 :: t6 :: rest).length := by
    intro p hp
    simp only [List.length_cons]
    omega
  unfold Analyzer.parse_type
  have hc0 : (⟨t1 :: t2 :: t3 :: t4 :: t5 :: t6 :: rest, 0⟩ :
      Analyzer).current = t1 := rfl
  rw [hc0, h1]
  simp only
  rw [advance_eq_of_lt (by exact hlen 0 (by omega))]
  have hc1 : (⟨t1 :: t2 :: t3 :: t4 :: t5 :: t6 :: rest, 1⟩ :
      Analyzer).current = t2 := rfl
  rw [hc1, h2]
  simp only [if_pos rfl]
  rw [advance_eq_of_lt (by exact hlen 1 (by omega))]
  have hc2 : (⟨t1 :: t2 :: t3 :: t4 :: t5 :: t6 :: rest, 2⟩ :
      Analyzer).current = t3 := rfl
  rw [expect_ok_of (k := .Number) (by rw [hc2]; exact h3)
    (hlen 2 (by omega))]
  simp only
  rw [hc2]
  have hc3 : (⟨t1 :: t2 :: t3 :: t4 :: t5 :: t6 :: rest, 3⟩ :
      Analyzer).current = t4 := rfl
  have hdir : ((⟨t1 :: t2 :: t3 :: t4 :: t5 :: t6 :: rest, 3⟩ :
      Analyzer).current.kind = TokenKind.Downto ||
      (⟨t1 :: t2 :: t3 :: t4 :: t5 :: t6 :: rest, 3⟩ :
      Analyzer).current.kind = TokenKind.To) = true := by
    rw [hc3]
    rcases h4 with h4 | h4 <;> rw [h4] <;> simp
  rw [if_pos hdir]
  rw [advance_eq_of_lt (by exact hlen 3 (by omega))]
  have hc4 : (⟨t1 :: t2 :: t3 :: t4 :: t5 :: t6 :: rest, 4⟩ :
      Analyzer).current = t5 := rfl
  rw [expect_ok_of (k := .Number) (by rw [hc4]; exact h5)
    (hlen 4 (by omega))]
  simp only
  rw [hc4]
  have hc5 : (⟨t1 :: t2 :: t3 :: t4 :: t5 :: t6 :: rest, 5⟩ :
      Analyzer).current = t6 := rfl
  rw [expect_ok_of (k := .RightParen) (by rw [hc5]; exact h6)
    (hlen 5 (by omega))]
  simp

/-- `parse_type` on a vector type with no parenthesized range: both
bounds default to 0. -/
lemma parse_type_norange_eq (t1 t2 : Token) (rest : List Token)
    (h1 : t1.kind = .StdLogicVector) (h2 : t2.kind ≠ .LeftParen) :
    Analyzer.parse_type ⟨t1 :: t2 :: rest, 0⟩ =
      .ok (.StdLogicVector 0 0, ⟨t1 :: t2 :: rest, 1⟩) := by
  unfold Analyzer.parse_type
  have hc0 : (⟨t1 :: t2 :: rest, 0⟩ : Analyzer).current = t1 := rfl
  rw [hc0, h1]
  simp only
  rw [advance_eq_of_lt (by simp)]
  have hc1 : (⟨t1 :: t2 :: rest, 1⟩ : Analyzer).current = t2 := rfl
  rw [hc1, if_neg h2]

/-- C4: `parse_type` on `std_logic_vector ( NUMBER dir NUMBER )` takes
the bounds positionally — high from the first number, low from the
second — whether `dir` is `downto` or `to`; with no parenthesized range
both bounds are 0. -/
theorem vig_c4 :
    (∀ (t1 t2 t3 t4 t5 t6 : Token) (rest : List Token),
      t1.kind = .StdLogicVector → t2.kind = .LeftParen →
      t3.kind = .Number → (t4.kind = .Downto ∨ t4.kind = .To) →
      t5.kind = .Number → t6.kind = .RightParen →
      Analyzer.parse_type ⟨t1 :: t2 :: t3 :: t4 :: t5 :: t6 :: rest, 0⟩ =
        .ok (.StdLogicVector ((rustParseI64 t3.text).getD 0)
              ((rustParseI64 t5.text).getD 0),
          ⟨t1 :: t2 :: t3 :: t4 :: t5 :: t6 :: rest, 6⟩)) ∧
    (∀ (t1 t2 : Token) (rest : List Token),
      t1.kind = .StdLogicVector → t2.kind ≠ .LeftParen →
      Analyzer.parse_type ⟨t1 :: t2 :: rest, 0⟩ =
        .ok (.StdLogicVector 0 0, ⟨t1 :: t2 :: rest, 1⟩)) :=
  ⟨fun t1 t2 t3 t4 t5 t6 rest h1 h2 h3 h4 h5 h6 =>
    parse_type_range_eq t1 t2 t3 t4 t5 t6 rest h1 h2 h3 h4 h5 h6,
   fun t1 t2 rest h1 h2 => parse_type_norange_eq t1 t2 rest h1 h2⟩

/-- Witness for C4: `std_logic_vector(7 downto 0)` gives high 7, low 0,
and `std_logic_vector(0 to 7)` gives high 0, low 7. -/
theorem vig_c4_witness :
    Analyzer.parse_type ⟨[mkTok .StdLogicVector 0 16 "std_logic_vector",
      mkTok .LeftParen 16 17 "(", mkTok .Number 17 18 "7",
      mkTok .Downto 19 25 "downto", mkTok .Number 26 27 "0",
      mkTok .RightParen 27 28 ")"], 0⟩ =
      .ok (.StdLogicVector 7 0,
        ⟨[mkTok .StdLogicVector 0 16 "std_logic_vector",
          mkTok .LeftParen 16 17 "(", mkTok .Number 17 18 "7",
          mkTok .Downto 19 25 "downto", mkTok .Number 26 27 "0",
          mkTok .RightParen 27 28 ")"], 6⟩) ∧
    Analyzer.parse_type ⟨[mkTok .StdLogicVector 0 16 "std_logic_vector",
      mkTok .LeftParen 16 17 "(", mkTok .Number 17 18 "0",
      mkTok .To 19 21 "to", mkTok .Number 22 23 "7",
      mkTok .RightParen 23 24 ")"], 0⟩ =
      .ok (.StdLogicVector 0 7,
        ⟨[mkTok .StdLogicVector 0 16 "std_logic_vector",
          mkTok .LeftParen 16 17 "(", mkTok .Number 17 18 "0",
          mkTok .To 19 21 "to", mkTok .Number 22 23 "7",
          mkTok .RightParen 23 24 ")"], 6⟩) := by
  constructor
  · have h := vig_c4.1 (mkTok .StdLogicVector 0 16 "std_logic_vector")
      (mkTok .LeftParen 16 17 "(") (mkTok .Number 17 18 "7")
      (mkTok .Downto 19 25 "downto") (mkTok .Number 26 27 "0")
      (mkTok .RightParen 27 28 ")") [] (by rfl) (by rfl) (by rfl)
      (Or.inl (by rfl)) (by rfl) (by rfl)
    rw [h]
    rfl
  · have h := vig_c4.1 (mkTok .StdLogicVector 0 16 "std_logic_vector")
      (mkTok .LeftParen 16 17 "(") (mkTok .Number 17 18 "0")
      (mkTok .To 19 21 "to") (mkTok .Number 22 23 "7")
      (mkTok .RightParen 23 24 ")") [] (by rfl) (by rfl) (by rfl)
      (Or.inr (by rfl)) (by rfl) (by rfl)
    rw [h]
    rfl

/-! ## Claim C6 -/

/-- C6: (i) a Number-kind bound token whose text fails integer parsing
makes `parse_type` use 0 for that bound, with no error; (ii) `expect`
(used for both bounds) errors exactly when the token at the cursor is
not of kind `Number`. -/
theorem vig_c6 :
    (∀ (t1 t2 t3 t4 t5 t6 : Token) (rest : List Token),
      t1.kind = .StdLogicVector → t2.kind = .LeftParen →
      t3.kind = .Number → (t4.kind = .Downto ∨ t4.kind = .To) →
      t5.kind = .Number → t6.kind = .RightParen →
      rustParseI64 t3.text = none →
      Analyzer.parse_type ⟨t1 :: t2 :: t3 :: t4 :: t5 :: t6 :: rest, 0⟩ =
        .ok (.StdLogicVector 0 ((rustParseI64 t5.text).getD 0),
          ⟨t1 :: t2 :: t3 :: t4 :: t5 :: t6 :: rest, 6⟩)) ∧
    (∀ a : Analyzer,
      (∃ e, a.expect .Number = .error e) ↔ a.current.kind ≠ .Number) := by
  constructor
  · intro t1 t2 t3 t4 t5 t6 rest h1 h2 h3 h4 h5 h6 hfail
    rw [parse_type_range_eq t1 t2 t3 t4 t5 t6 rest h1 h2 h3 h4 h5 h6,
      hfail]
    rfl
  · intro a
    exact expect_error_iff a .Number

/-- Bound token with the unparseable text `1_0` (the lexer accepts
underscores in number tokens; `i64` parsing does not). -/
def c6toks : List Token :=
  [mkTok .StdLogicVector 0 16 "std_logic_vector",
   mkTok .LeftParen 16 17 "(", mkTok .Number 17 20 "1_0",
   mkTok .Downto 21 27 "downto", mkTok .Number 28 29 "7",
   mkTok .RightParen 29 30 ")"]

/-- Witness for C6: the bound `1_0` does not parse as an integer, the
resulting high bound is 0, no error is raised; and at the left
parenthesis position `expect Number` errors because the kind differs. -/
theorem vig_c6_witness :
    Analyzer.parse_type ⟨c6toks, 0⟩ =
      .ok (.StdLogicVector 0 7, ⟨c6toks, 6⟩) ∧
    ((∃ e, (⟨c6toks, 1⟩ : Analyzer).expect .Number = .error e) ↔
      (⟨c6toks, 1⟩ : Analyzer).current.kind ≠ .Number) := by
  constructor
  · have h := vig_c6.1 (mkTok .StdLogicVector 0 16 "std_logic_vector")
      (mkTok .LeftParen 16 17 "(") (mkTok .Number 17 20 "1_0")
      (mkTok .Downto 21 27 "downto") (mkTok .Number 28 29 "7")
      (mkTok .RightParen 29 30 ")") [] (by rfl) (by rfl) (by rfl)
      (Or.inl (by rfl)) (by rfl) (by rfl) (by rfl)
    rw [show Analyzer.parse_type ⟨c6toks, 0⟩ =
      Analyzer.parse_type ⟨[mkTok .StdLogicVector 0 16 "std_logic_vector",
        mkTok .LeftParen 16 17 "(", mkTok .Number 17 20 "1_0",
        mkTok .Downto 21 27 "downto", mkTok .Number 28 29 "7",
        mkTok .RightParen 29 30 ")"], 0⟩ from rfl, h]
    rfl
  · exact vig_c6.2 ⟨c6toks, 1⟩

/-! ## Claim C5 -/

/-- The direction a direction-keyword token parses to. -/
def direction_of : TokenKind → Option PortDirection
  | .In => some .In
  | .Out => some .Out
  | .Inout => some .Inout
  | .Buffer => some .Buffer
  | _ => none

/-- The type a single-token type parses to (`std_logic`, `integer`,
`boolean`, or an identifier as `Other`). -/
def simple_type_of (t : Token) : Option VhdlType :=
  match t.kind with
  | .StdLogic => some .StdLogic
  | .Integer => some .Integer
  | .Boolean => some .Boolean
  | .Identifier => some (.Other t.text)
  | _ => none

lemma parse_direction_of {a : Analyzer} {d : PortDirection}
    (h : direction_of a.current.kind = some d)
    (hlt : a.pos < a.tokens.length) :
    a.parse_direction = .ok (d, ⟨a.tokens, a.pos + 1⟩) := by
  unfold Analyzer.parse_direction
  unfold direction_of at h
  split at h <;>
    first
      | exact Option.noConfusion h
      | (injection h with h'
         rw [← h', advance_eq_of_lt hlt])

lemma parse_simple_type_of {a : Analyzer} {ty : VhdlType}
    (h : simple_type_of a.current = some ty)
    (hlt : a.pos < a.tokens.length) :
    a.parse_type = .ok (ty, ⟨a.tokens, a.pos + 1⟩) := by
  unfold Analyzer.parse_type
  unfold simple_type_of at h
  split at h <;>
    first
      | exact Option.noConfusion h
      | (rename_i hk
         rw [hk]
         injection h with h'
         rw [← h', advance_eq_of_lt hlt])

lemma flatMap_pair_length (ps : List (Token × Token)) :
    (ps.flatMap (fun q => [q.1, q.2])).length = 2 * ps.length := by
  induction ps with
  | nil => rfl
  | cons q qs ih =>
    simp only [List.flatMap_cons, List.length_append, List.length_cons,
      List.length_nil, ih]
    omega

/-- The comma loop of `parse_port_group` over a well-formed
`, IDENT , IDENT …` tail followed by a colon: it collects the identifier
texts in order and stops at the colon. -/
lemma port_names_loop_shape (ts : List Token) (colonTok : Token)
    (suf : List Token)
    (ps : List (Token × Token)) (names : List String) (pre : List Token)
    (hts : ts = pre ++ ps.flatMap (fun q => [q.1, q.2]) ++ colonTok :: suf)
    (hc : colonTok.kind ≠ .Comma)
    (hkinds : ∀ q ∈ ps, q.1.kind = .Comma ∧ q.2.kind = .Identifier)
    {fuel : Nat} (hf : ps.length < fuel) :
    Analyzer.port_names_loop fuel names ⟨ts, pre.length⟩ =
      some (.ok (names ++ ps.map (fun q => q.2.text),
        ⟨ts, pre.length + 2 * ps.length⟩)) := by
  induction ps generalizing names pre fuel with
  | nil =>
    rcases fuel with _ | n
    · omega
    unfold Analyzer.port_names_loop
    have hcur : (⟨ts, pre.length⟩ : Analyzer).current = colonTok := by
      show ts.getD pre.length eof_token = colonTok
      rw [hts]
      simp only [List.flatMap_nil, List.append_nil]
      exact getD_append_cons pre suf colonTok eof_token
    rw [if_neg (by rw [hcur]; exact hc)]
    simp
  | cons q qs ih =>
    rcases fuel with _ | n
    · omega
    unfold Analyzer.port_names_loop
    have hq := hkinds q (List.mem_cons_self q qs)
    have hts1 : ts = pre ++ q.1 :: q.2 ::
        (qs.flatMap (fun r => [r.1, r.2]) ++ colonTok :: suf) := by
      rw [hts]
      simp
    have hcur : (⟨ts, pre.length⟩ : Analyzer).current = q.1 := by
      show ts.getD pre.length eof_token = q.1
      rw [hts1]
      exact getD_append_cons pre _ q.1 eof_token
    rw [if_pos (by rw [hcur]; exact hq.1)]
    have hlen0 : pre.length < ts.length := by
      rw [hts1]
      simp
    rw [advance_eq_of_lt (a := ⟨ts, pre.length⟩) hlen0]
    have hts2 : ts = (pre ++ [q.1]) ++ q.2 ::
        (qs.flatMap (fun r => [r.1, r.2]) ++ colonTok :: suf) := by
      rw [hts]
      simp
    have hcur1 : (⟨ts, pre.length + 1⟩ : Analyzer).current = q.2 := by
      show ts.getD (pre.length + 1) eof_token = q.2
      rw [hts2, show pre.length + 1 = (pre ++ [q.1]).length by simp]
      exact getD_append_cons _ _ q.2 eof_token
    have hlen1 : pre.length + 1 < ts.length := by
      rw [hts1]
      simp
    rw [expect_ok_of (k := .Identifier) (by rw [hcur1]; exact hq.2) hlen1]
    simp only
    rw [hcur1]
    have hih := ih (names ++ [q.2.text]) (pre ++ [q.1, q.2])
      (by rw [hts]; simp) (fun r hr => hkinds r (List.mem_cons_of_mem q hr))
      (show qs.length < n by simp at hf; omega)
    have hpp : (pre ++ [q.1, q.2]).length = pre.length + 1 + 1 := by
      simp
    rw [hpp] at hih
    rw [hih]
    have hlist : (names ++ [q.2.text]) ++
        qs.map (fun r => r.2.text) =
        names ++ (q :: qs).map (fun r => r.2.text) := by
      simp
    rw [hlist]
    have hpos : pre.length + 1 + 1 + 2 * qs.length =
        pre.length + 2 * (q :: qs).length := by
      simp only [List.length_cons]
      omega
    rw [hpos]

/-- C5: a port group of `1 + ps.length` comma-separated names expands to
exactly that many `PortDef`s, in name order, all sharing the parsed
direction, the parsed type, and the span of the group's first token. -/
theorem vig_c5 (firstTok colonTok dirTok tyTok : Token)
    (ps : List (Token × Token)) (suf : List Token)
    (d : PortDirection) (ty : VhdlType) (ts : List Token) (fuel : Nat)
    (hts : ts = firstTok :: ps.flatMap (fun q => [q.1, q.2]) ++
      colonTok :: dirTok :: tyTok :: suf)
    (h1 : firstTok.kind = .Identifier)
    (hps : ∀ q ∈ ps, q.1.kind = .Comma ∧ q.2.kind = .Identifier)
    (hcolon : colonTok.kind = .Colon)
    (hdir : direction_of dirTok.kind = some d)
    (hty : simple_type_of tyTok = some ty)
    (hfuel : ps.length < fuel) :
    Analyzer.parse_port_group fuel ⟨ts, 0⟩ =
      some (.ok ((firstTok.text :: ps.map (fun q => q.2.text)).map
        (fun n => { name := n, direction := d, vhdl_type := ty,
                    span := firstTok.span }),
        ⟨ts, 2 * ps.length + 4⟩)) := by
  have hflat := flatMap_pair_length ps
  have hlen : ts.length = 2 * ps.length + 4 + suf.length := by
    rw [hts]
    simp only [List.cons_append, List.length_cons, List.length_append,
      hflat]
    omega
  have hcur0 : (⟨ts, 0⟩ : Analyzer).current = firstTok := by
    show ts.getD 0 eof_token = firstTok
    rw [hts]
    rfl
  unfold Analyzer.parse_port_group
  rw [expect_ok_of (k := .Identifier) (by rw [hcur0]; exact h1)
    (by show (0 : Nat) < ts.length; omega)]
  simp only [Nat.zero_add]
  rw [hcur0]
  have hshape := port_names_loop_shape ts colonTok
    (dirTok :: tyTok :: suf) ps [firstTok.text] [firstTok]
    (by rw [hts]; simp) (by rw [hcolon]; simp) hps hfuel
  have hshape2 : Analyzer.port_names_loop fuel [firstTok.text]
      ⟨ts, 1⟩ = some (.ok (firstTok.text :: ps.map (fun q => q.2.text),
        ⟨ts, 1 + 2 * ps.length⟩)) := by
    simpa using hshape
  rw [hshape2]
  simp only
  have hcurc : (⟨ts, 1 + 2 * ps.length⟩ : Analyzer).current =
      colonTok := by
    show ts.getD (1 + 2 * ps.length) eof_token = colonTok
    rw [show ts = (firstTok :: ps.flatMap (fun q => [q.1, q.2])) ++
      colonTok :: dirTok :: tyTok :: suf by rw [hts],
      show 1 + 2 * ps.length =
        (firstTok :: ps.flatMap (fun q => [q.1, q.2])).length by
          simp only [List.length_cons, hflat]; omega]
    exact getD_append_cons _ _ colonTok eof_token
  rw [expect_ok_of (k := .Colon) (by rw [hcurc]; exact hcolon)
    (by show 1 + 2 * ps.length < ts.length; omega)]
  simp only
  have hcurd : (⟨ts, 1 + 2 * ps.length + 1⟩ : Analyzer).current =
      dirTok := by
    show ts.getD (1 + 2 * ps.length + 1) eof_token = dirTok
    rw [show ts = (firstTok :: ps.flatMap (fun q => [q.1, q.2]) ++
      [colonTok]) ++ dirTok :: tyTok :: suf by rw [hts]; simp,
      show 1 + 2 * ps.length + 1 =
        (firstTok :: ps.flatMap (fun q => [q.1, q.2]) ++
          [colonTok]).length by
          simp only [List.length_cons, List.length_append, List.length_nil,
            hflat]
          omega]
    exact getD_append_cons _ _ dirTok eof_token
  rw [parse_direction_of (a := ⟨ts, 1 + 2 * ps.length + 1⟩)
    (by rw [hcurd]; exact hdir)
    (by show 1 + 2 * ps.length + 1 < ts.length; omega)]
  simp only
  have hcurt : (⟨ts, 1 + 2 * ps.length + 1 + 1⟩ : Analyzer).current =
      tyTok := by
    show ts.getD (1 + 2 * ps.length + 1 + 1) eof_token = tyTok
    rw [show ts = (firstTok :: ps.flatMap (fun q => [q.1, q.2]) ++
      [colonTok, dirTok]) ++ tyTok :: suf by rw [hts]; simp,
      show 1 + 2 * ps.length + 1 + 1 =
        (firstTok :: ps.flatMap (fun q => [q.1, q.2]) ++
          [colonTok, dirTok]).length by
          simp only [List.length_cons, List.length_append, List.length_nil,
            hflat]
          omega]
    exact getD_append_cons _ _ tyTok eof_token
  rw [parse_simple_type_of (a := ⟨ts, 1 + 2 * ps.length + 1 + 1⟩)
    (by rw [hcurt]; exact hty)
    (by show 1 + 2 * ps.length + 1 + 1 < ts.length; omega)]
  simp only [Option.some.injEq, Except.ok.injEq, Prod.mk.injEq,
    Analyzer.mk.injEq]
  refine ⟨by simp, by simp, by omega⟩

/-- The token vector of the port group `a, b, c : in std_logic`. -/
def c5toks : List Token :=
  [mkTok .Identifier 0 1 "a", mkTok .Comma 1 2 ",",
   mkTok .Identifier 3 4 "b", mkTok .Comma 4 5 ",",
   mkTok .Identifier 6 7 "c", mkTok .Colon 8 9 ":",
   mkTok .In 10 12 "in", mkTok .StdLogic 13 22 "std_logic"]

/-- Witness for C5: `a, b, c : in std_logic` yields exactly three
`PortDef`s in order, all with direction `In`, type `StdLogic`, and the
first token's span. -/
theorem vig_c5_witness :
    Analyzer.parse_port_group 3 ⟨c5toks, 0⟩ =
      some (.ok ([mkPort .In .StdLogic 0 1 "a",
        mkPort .In .StdLogic 0 1 "b", mkPort .In .StdLogic 0 1 "c"],
        ⟨c5toks, 8⟩)) := by
  have h := vig_c5 (mkTok .Identifier 0 1 "a") (mkTok .Colon 8 9 ":")
    (mkTok .In 10 12 "in") (mkTok .StdLogic 13 22 "std_logic")
    [(mkTok .Comma 1 2 ",", mkTok .Identifier 3 4 "b"),
     (mkTok .Comma 4 5 ",", mkTok .Identifier 6 7 "c")]
    [] .In .StdLogic c5toks 3 (by rfl) (by rfl) (by decide) (by rfl)
    (by rfl) (by rfl) (by decide)
  rw [h]
  rfl

/-! ## Claim C9 -/

/-- The empty string. -/
def emptyStr : String := ""

/-- When the token at the cursor is `:=` and the next one is `;` (or the
end of stream), the default-value step yields `some` of the empty
string. -/
lemma signal_default_assign_semi {fuel : Nat} {a : Analyzer}
    (h5 : a.current.kind = .Assignment)
    (hlt : a.pos < a.tokens.length)
    (h6 : (⟨a.tokens, a.pos + 1⟩ : Analyzer).current.kind = .Semicolon ∨
      (⟨a.tokens, a.pos + 1⟩ : Analyzer).current.kind = .Eof)
    (hfuel : 0 < fuel) :
    Analyzer.signal_default fuel a =
      some (some emptyStr, ⟨a.tokens, a.pos + 1⟩) := by
  unfold Analyzer.signal_default
  rw [if_pos h5, advance_eq_of_lt hlt]
  rcases fuel with _ | n
  · omega
  unfold Analyzer.parse_default_value
  rw [if_pos (by rcases h6 with h6 | h6 <;> simp [h6])]
  rfl

/-- C9: (i) in a signal declaration where `:=` is immediately followed
by `;`, the default value is `Some` of the empty string, not `None`;
(ii) for any successfully parsed signal declaration, the default value
is `None` exactly when the token after the type is not `:=`. -/
theorem vig_c9 :
    (∀ (t1 t2 t3 tyTok t5 t6 : Token) (rest : List Token)
      (ty : VhdlType) (fuel : Nat),
      t1.kind = .Signal → t2.kind = .Identifier → t3.kind = .Colon →
      simple_type_of tyTok = some ty →
      t5.kind = .Assignment → t6.kind = .Semicolon → 0 < fuel →
      Analyzer.parse_signal_decl fuel
          ⟨t1 :: t2 :: t3 :: tyTok :: t5 :: t6 :: rest, 0⟩ =
        some (.ok (mkSignal ty (some emptyStr) t1.span.start
          t6.span.«end» t2.text,
          ⟨t1 :: t2 :: t3 :: tyTok :: t5 :: t6 :: rest, 6⟩))) ∧
    (∀ (fuel : Nat) (a a1 a2 a3 a4 b : Analyzer)
      (nameTok u1 u2 : Token) (ty : VhdlType) (sig : SignalDef),
      a.expect .Signal = .ok (u1, a1) →
      a1.expect .Identifier = .ok (nameTok, a2) →
      a2.expect .Colon = .ok (u2, a3) →
      a3.parse_type = .ok (ty, a4) →
      Analyzer.parse_signal_decl fuel a = some (.ok (sig, b)) →
      (sig.default_value = none ↔ a4.current.kind ≠ .Assignment)) := by
  constructor
  · intro t1 t2 t3 tyTok t5 t6 rest ty fuel h1 h2 h3 hty h5 h6 hfuel
    have hlen : ∀ p, p < 6 →
        p < (t1 :: t2 :: t3 :: tyTok :: t5 :: t6 :: rest).length := by
      intro p hp
      simp only [List.length_cons]
      omega
    have hc0 : (⟨t1 :: t2 :: t3 :: tyTok :: t5 :: t6 :: rest, 0⟩ :
        Analyzer).current = t1 := rfl
    have hc1 : (⟨t1 :: t2 :: t3 :: tyTok :: t5 :: t6 :: rest, 1⟩ :
        Analyzer).current = t2 := rfl
    have hc2 : (⟨t1 :: t2 :: t3 :: tyTok :: t5 :: t6 :: rest, 2⟩ :
        Analyzer).current = t3 := rfl
    have hc3 : (⟨t1 :: t2 :: t3 :: tyTok :: t5 :: t6 :: rest, 3⟩ :
        Analyzer).current = tyTok := rfl
    have hc4 : (⟨t1 :: t2 :: t3 :: tyTok :: t5 :: t6 :: rest, 4⟩ :
        Analyzer).current = t5 := rfl
    have hc5 : (⟨t1 :: t2 :: t3 :: tyTok :: t5 :: t6 :: rest, 4 + 1⟩ :
        Analyzer).current = t6 := rfl
    unfold Analyzer.parse_signal_decl
    rw [expect_ok_of (k := .Signal) (by rw [hc0]; exact h1)
      (hlen 0 (by omega))]
    simp only [Nat.zero_add]
    rw [expect_ok_of (k := .Identifier) (by rw [hc1]; exact h2)
      (hlen 1 (by omega))]
    simp only
    rw [hc1]
    rw [expect_ok_of (k := .Colon) (by rw [hc2]; exact h3)
      (hlen 2 (by omega))]
    simp only
    rw [parse_simple_type_of
      (a := ⟨t1 :: t2 :: t3 :: tyTok :: t5 :: t6 :: rest, 3⟩)
      (by rw [hc3]; exact hty) (hlen 3 (by omega))]
    simp only
    rw [signal_default_assign_semi
      (a := ⟨t1 :: t2 :: t3 :: tyTok :: t5 :: t6 :: rest, 4⟩)
      (by rw [hc4]; exact h5) (hlen 4 (by omega))
      (Or.inl (by rw [hc5]; exact h6)) hfuel]
    simp only
    rw [expect_ok_of (k := .Semicolon) (by rw [hc5]; exact h6)
      (hlen 5 (by omega))]
    rfl
  · intro fuel a a1 a2 a3 a4 b nameTok u1 u2 ty sig hexp1 hexp2 hexp3
      hty hrun
    unfold Analyzer.parse_signal_decl at hrun
    rw [hexp1] at hrun
    simp only at hrun
    rw [hexp2] at hrun
    simp only at hrun
    rw [hexp3] at hrun
    simp only at hrun
    rw [hty] at hrun
    simp only at hrun
    unfold Analyzer.signal_default at hrun
    by_cases hasg : a4.current.kind = .Assignment
    · rw [if_pos hasg] at hrun
      rcases hdv : Analyzer.parse_default_value fuel [] a4.advance with
        _ | ⟨v, a5⟩
      · rw [hdv] at hrun
        exact Option.noConfusion hrun
      · rw [hdv] at hrun
        simp only at hrun
        rcases hsemi : a5.expect .Semicolon with e | ⟨t6, a6⟩
        · rw [hsemi] at hrun
          simp only at hrun
          exact absurd hrun (by simp)
        · rw [hsemi] at hrun
          simp only at hrun
          injection hrun with hrun'
          injection hrun' with hrun''
          injection hrun'' with hsig hb
          rw [← hsig]
          simp [hasg]
    · rw [if_neg hasg] at hrun
      simp only at hrun
      rcases hsemi : a4.expect .Semicolon with e | ⟨t6, a6⟩
      · rw [hsemi] at hrun
        simp only at hrun
        exact absurd hrun (by simp)
      · rw [hsemi] at hrun
        simp only at hrun
        injection hrun with hrun'
        injection hrun' with hrun''
        injection hrun'' with hsig hb
        rw [← hsig]
        simp [hasg]

/-- The token vector of `signal s : std_logic := ;`. -/
def c9toks : List Token :=
  [mkTok .Signal 0 6 "signal", mkTok .Identifier 7 8 "s",
   mkTok .Colon 9 10 ":", mkTok .StdLogic 11 20 "std_logic",
   mkTok .Assignment 21 23 ":=", mkTok .Semicolon 24 25 ";"]

/-- Witness for C9: parsing `signal s : std_logic := ;` yields
`default_value = some ""`, and the iff holds at this concrete
declaration (both sides false: the token after the type is `:=`). -/
theorem vig_c9_witness :
    Analyzer.parse_signal_decl 1 ⟨c9toks, 0⟩ =
      some (.ok (mkSignal .StdLogic (some emptyStr) 0 25 "s",
        ⟨c9toks, 6⟩)) ∧
    ((mkSignal .StdLogic (some emptyStr) 0 25 "s").default_value =
        none ↔
      (⟨c9toks, 4⟩ : Analyzer).current.kind ≠ .Assignment) := by
  have h := vig_c9.1 (mkTok .Signal 0 6 "signal")
    (mkTok .Identifier 7 8 "s") (mkTok .Colon 9 10 ":")
    (mkTok .StdLogic 11 20 "std_logic") (mkTok .Assignment 21 23 ":=")
    (mkTok .Semicolon 24 25 ";") [] .StdLogic 1 (by rfl) (by rfl)
    (by rfl) (by rfl) (by rfl) (by rfl) (by omega)
  have h2 : Analyzer.parse_signal_decl 1 ⟨c9toks, 0⟩ =
      some (.ok (mkSignal .StdLogic (some emptyStr) 0 25 "s",
        ⟨c9toks, 6⟩)) := by
    rw [show Analyzer.parse_signal_decl 1 ⟨c9toks, 0⟩ =
      Analyzer.parse_signal_decl 1 ⟨[mkTok .Signal 0 6 "signal",
        mkTok .Identifier 7 8 "s", mkTok .Colon 9 10 ":",
        mkTok .StdLogic 11 20 "std_logic", mkTok .Assignment 21 23 ":=",
        mkTok .Semicolon 24 25 ";"], 0⟩ from rfl, h]
    rfl
  refine ⟨h2, ?_⟩
  exact vig_c9.2 1 ⟨c9toks, 0⟩ ⟨c9toks, 1⟩ ⟨c9toks, 2⟩ ⟨c9toks, 3⟩
    ⟨c9toks, 4⟩ ⟨c9toks, 6⟩ (mkTok .Identifier 7 8 "s")
    (mkTok .Signal 0 6 "signal") (mkTok .Colon 9 10 ":") .StdLogic
    (mkSignal .StdLogic (some emptyStr) 0 25 "s")
    (by rfl) (by rfl) (by rfl) (by rfl) h2

/-! ## Claim C7 -/

/-- From index `k` on, the token vector contains no `End` token
immediately followed by an `Architecture` token.  (A pair whose second
element would lie past the end of the vector can never match: the
lookahead reads the Eof sentinel there.) -/
def NoEndArchPair (ts : List Token) (k : Nat) : Prop :=
  ∀ i, i < ts.length → k ≤ i →
    ¬((ts.getD i eof_token).kind = .End ∧
      (ts.getD (i + 1) eof_token).kind = .Architecture)

instance (ts : List Token) (k : Nat) : Decidable (NoEndArchPair ts k) := by
  unfold NoEndArchPair
  infer_instance

/-- With no `end architecture` pair ahead (and no stray `Eof`-kind
tokens, as guaranteed by the analyzer's input filter), the body scan
consumes every remaining token and stops at the end of the stream. -/
lemma skip_scan_to_end {fuel : Nat} {a : Analyzer}
    (hpair : NoEndArchPair a.tokens a.pos)
    (hnoeof : ∀ t ∈ a.tokens, t.kind ≠ .Eof)
    (hle : a.pos ≤ a.tokens.length)
    (hf : a.tokens.length - a.pos < fuel) :
    Analyzer.skip_until_end_architecture fuel a =
      some ⟨a.tokens, a.tokens.length⟩ := by
  induction fuel generalizing a with
  | zero => omega
  | succ n ih =>
    unfold Analyzer.skip_until_end_architecture
    by_cases hlt : a.pos < a.tokens.length
    · have hcur : a.current.kind ≠ .Eof := by
        have hmem : a.tokens.getD a.pos eof_token ∈ a.tokens := by
          rw [List.getD_eq_getElem _ _ hlt]
          exact List.getElem_mem _
        exact hnoeof _ hmem
      rw [if_neg hcur]
      have hpk := hpair a.pos hlt (Nat.le_refl _)
      rw [if_neg (by
        simp only [Bool.and_eq_true, decide_eq_true_eq]
        exact hpk)]
      have hadv : a.advance = ⟨a.tokens, a.pos + 1⟩ := advance_eq_of_lt hlt
      rw [hadv]
      have hres := ih (a := ⟨a.tokens, a.pos + 1⟩)
        (by
          intro i hi hki
          have hki2 : a.pos + 1 ≤ i := hki
          have hi2 : i < a.tokens.length := hi
          exact hpair i hi2 (by omega))
        hnoeof (by show a.pos + 1 ≤ a.tokens.length; omega)
        (by show a.tokens.length - (a.pos + 1) < n; omega)
      exact hres
    · have hpos : a.pos = a.tokens.length := by omega
      rw [if_pos (by rw [current_of_ge (by omega)]; rfl)]
      rcases a with ⟨ts, p⟩
      simp only at hpos
      rw [hpos]

/-- C7: when the architecture header and declarative part parse
successfully and no `End`-then-`Architecture` token pair occurs from the
scan position to the end of the stream, `parse_architecture` still
returns Ok; the scan consumes every remaining token and the
architecture's span end is the span end of the vector's last token. -/
theorem vig_c7 (fuel : Nat) (a a1 a2 a3 a4 a5 a6 : Analyzer)
    (archTok entTok u1 u3 u5 : Token) (signals : List SignalDef)
    (h1 : a.expect .Architecture = .ok (u1, a1))
    (h2 : a1.expect .Identifier = .ok (archTok, a2))
    (h3 : a2.expect .Of = .ok (u3, a3))
    (h4 : a3.expect .Identifier = .ok (entTok, a4))
    (h5 : a4.expect .Is = .ok (u5, a5))
    (h6 : Analyzer.arch_decls fuel [] a5 = some (.ok (signals, a6)))
    (hpair : NoEndArchPair a.tokens a6.pos)
    (hnoeof : ∀ t ∈ a.tokens, t.kind ≠ .Eof)
    (hf : a.tokens.length - a6.pos < fuel) :
    Analyzer.parse_architecture fuel a =
      some (.ok (mkArch signals a.current.span.start
        (a.tokens.getD (a.tokens.length - 1) eof_token).span.«end»
        archTok.text entTok.text,
        ⟨a.tokens, a.tokens.length⟩)) := by
  have s1 := stepped_expect_ok h1
  have s2 := stepped_expect_ok h2
  have s3 := stepped_expect_ok h3
  have s4 := stepped_expect_ok h4
  have s5 := stepped_expect_ok h5
  have s6 := arch_decls_stepped h6
  have hp1 := expect_ok_pos h1 (by simp)
  have htok6 : a6.tokens = a.tokens := by
    rw [s6.tokens_eq, s5.tokens_eq, s4.tokens_eq, s3.tokens_eq,
      s2.tokens_eq, s1.tokens_eq]
  have hle6 : a6.pos ≤ a.tokens.length := by
    have hb := (s1.trans (s2.trans (s3.trans (s4.trans
      (s5.trans s6))))).2.2
    have := hp1.1
    omega
  have hscan := skip_scan_to_end (a := a6)
    (by rw [htok6]; exact hpair)
    (by rw [htok6]; exact hnoeof)
    (by rw [htok6]; exact hle6)
    (show a6.tokens.length - a6.pos < fuel by rw [htok6]; exact hf)
  rw [htok6] at hscan
  unfold Analyzer.parse_architecture
  rw [h1]
  simp only
  rw [h2]
  simp only
  rw [h3]
  simp only
  rw [h4]
  simp only
  rw [h5]
  simp only
  rw [h6]
  simp only
  rw [hscan]
  simp only
  have hget : (⟨a.tokens, a.tokens.length⟩ :
      Analyzer).tokens.get? ((⟨a.tokens, a.tokens.length⟩ :
        Analyzer).pos - 1) =
      some (a.tokens.getD (a.tokens.length - 1) eof_token) := by
    show a.tokens.get? (a.tokens.length - 1) = _
    have hlt : a.tokens.length - 1 < a.tokens.length := by
      have := hp1.1
      omega
    rw [List.getD_eq_getElem _ _ hlt]
    exact List.get?_eq_get hlt
  rw [hget]
  rfl

/-- The token vector of `architecture r of e is begin x` — no
`end architecture` anywhere. -/
def c7toks : List Token :=
  [mkTok .Architecture 0 12 "architecture", mkTok .Identifier 13 14 "r",
   mkTok .Of 15 17 "of", mkTok .Identifier 18 19 "e",
   mkTok .Is 20 22 "is", mkTok .Begin 23 28 "begin",
   mkTok .Identifier 29 30 "x"]

/-- Witness for C7 at a concrete unterminated architecture: parsing
returns Ok, the cursor ends at the end of the stream, and the span end
comes from the last token (`x`, bytes 29..30). -/
theorem vig_c7_witness :
    Analyzer.parse_architecture 3 ⟨c7toks, 0⟩ =
      some (.ok (mkArch [] 0 30 "r" "e", ⟨c7toks, 7⟩)) := by
  have h := vig_c7 3 ⟨c7toks, 0⟩ ⟨c7toks, 1⟩ ⟨c7toks, 2⟩ ⟨c7toks, 3⟩
    ⟨c7toks, 4⟩ ⟨c7toks, 5⟩ ⟨c7toks, 5⟩ (mkTok .Identifier 13 14 "r")
    (mkTok .Identifier 18 19 "e") (mkTok .Architecture 0 12 "architecture")
    (mkTok .Of 15 17 "of") (mkTok .Is 20 22 "is") []
    (by rfl) (by rfl) (by rfl) (by rfl) (by rfl) (by rfl)
    (by decide) (by decide) (by decide)
  rw [h]
  rfl

end Vig
